import Mathlib

/-!
Verification development for the `submerger` subtitle-merging tool.

The definitions below are a shallow embedding of the program's Rust
sources (`src/main.rs`, `src/merge.rs`).  Machine integers are modelled
as `Nat`/`Int` with explicit wrap-around (`% 256` for an `as u8` cast)
where the source can overflow; fallible Rust functions returning
`anyhow::Result` are modelled with `Except String`/`Option`; the opaque
third-party subtitle codecs (`subtp`) are modelled by their data types,
with the raw textual parsers abstracted as parameters.
-/

/-! ## Timed-text model (the `subtp` cue types used by the program) -/

/-- `subtp::srt::SrtTimestamp`: hours/minutes/seconds/milliseconds.
In Rust the fields are `u8`/`u8`/`u8`/`u16`; they are modelled as `Nat`
with the wrap-around of the `as u8`/`as u16` casts made explicit at the
only place the program constructs a timestamp (`chrono_to_srt`). -/
structure SrtTimestamp where
  hours : Nat
  minutes : Nat
  seconds : Nat
  milliseconds : Nat
deriving DecidableEq, Repr

/-- `subtp::srt::SrtSubtitle`: one cue.  The `line_position` field of the
library (set to `None` by the program, never read) is modelled as
`Option Unit`.  The Rust field `end` is spelled `end_`. -/
structure SrtSubtitle where
  sequence : Nat
  start : SrtTimestamp
  end_ : SrtTimestamp
  text : List String
  line_position : Option Unit
deriving DecidableEq, Repr

/-- `subtp::srt::SubRip`: a whole track, cue list in document order. -/
structure SubRip where
  subtitles : List SrtSubtitle
deriving DecidableEq, Repr

/-- `SubPosition` from `main.rs`: the nine-value screen-position enum. -/
inductive SubPosition where
  | BottomLeft
  | BottomCenter
  | BottomRight
  | MiddleLeft
  | MiddleCenter
  | MiddleRight
  | TopLeft
  | TopCenter
  | TopRight
deriving DecidableEq, Repr

/-- The `Display` impl of `SubPosition` in `main.rs`: the fixed markup
tag of each position (`\x7b\an1\x7d` .. `\x7b\an9\x7d`). -/
def posTag : SubPosition → String
  | .BottomLeft => "\x7b\\an1\x7d"
  | .BottomCenter => "\x7b\\an2\x7d"
  | .BottomRight => "\x7b\\an3\x7d"
  | .MiddleLeft => "\x7b\\an4\x7d"
  | .MiddleCenter => "\x7b\\an5\x7d"
  | .MiddleRight => "\x7b\\an6\x7d"
  | .TopLeft => "\x7b\\an7\x7d"
  | .TopCenter => "\x7b\\an8\x7d"
  | .TopRight => "\x7b\\an9\x7d"

/-! ## Timestamp arithmetic (`main.rs`) -/

/-- `srt_to_chrono` from `main.rs`: total signed milliseconds of a
timestamp (a `chrono::Duration` is just its `i64` millisecond count for
this program). -/
def srt_to_chrono (srt : SrtTimestamp) : Int :=
  (srt.hours : Int) * 60 * 60 * 1000
    + (srt.minutes : Int) * 60 * 1000
    + (srt.seconds : Int) * 1000
    + (srt.milliseconds : Int)

/-- `chrono_to_srt` from `main.rs`: renders a signed duration back to
fields using the absolute value (`num_milliseconds().abs()`) of the
total; the `as u8` cast on the hours field wraps modulo 256. -/
def chrono_to_srt (duration : Int) : SrtTimestamp :=
  let total_millis := duration.natAbs
  { hours := total_millis / (60 * 60 * 1000) % 256
    minutes := total_millis / (60 * 1000) % 60
    seconds := total_millis / 1000 % 60
    milliseconds := total_millis % 1000 }

/-- Field-validity of a timestamp: the ranges every parsed `u8`/`u16`
timestamp representing a real clock value satisfies. -/
def validTs (t : SrtTimestamp) : Prop :=
  t.hours < 256 ∧ t.minutes < 60 ∧ t.seconds < 60 ∧ t.milliseconds < 1000

instance (t : SrtTimestamp) : Decidable (validTs t) := by
  unfold validTs; infer_instance

/-! ## Track transformer (`apply_sub_changes` in `main.rs`) -/

/-- `<font color="..">` / `</font>` pair of `apply_sub_changes` (and of
`merge`); `("", "")` when no color was supplied. -/
def colorTags : Option String → String × String
  | some color => ("<font color=\"" ++ color ++ "\">", "</font>")
  | none => ("", "")

/-- `text.strip_prefix(r"\x7b\an8\x7d")` step of `apply_sub_changes`:
drop a leading legacy top-center marker, otherwise leave the line. -/
def dropAn8 (s : String) : String :=
  if List.isPrefixOf ("\x7b\\an8\x7d").toList s.toList then
    String.mk (s.toList.drop 6)
  else s

/-- The per-line rewrite `format!("\x7bposition\x7d \x7bcolor_start\x7d\x7btxt\x7d\x7bcolor_end\x7d")`
shared by `apply_sub_changes` and `merge`. -/
def styleLine (position colorStart colorEnd line : String) : String :=
  position ++ " " ++ colorStart ++ line ++ colorEnd

/-- `apply_sub_changes` from `main.rs`, as a pure function on the track.
The Rust offset parameter is an `f32` in seconds, converted once per cue
by `f32_to_chrono` to whole milliseconds (`(secs * 1000.0) as i64`,
rounding toward zero); the embedding takes that integer millisecond
value `offsetMs` directly.  Steps per cue, in source order: clear
`line_position`, strip a leading an8 marker from every line, prepend the
position tag and wrap in the color pair on every line, and add the
offset to `start` and `end`. -/
def apply_sub_changes (srt : SubRip) (color_opt : Option String)
    (position : SubPosition) (offsetMs : Int) : SubRip :=
  let pos := posTag position
  let ct := colorTags color_opt
  { subtitles := srt.subtitles.map (fun sub =>
      let stripped := sub.text.map dropAn8
      { sequence := sub.sequence
        start := chrono_to_srt (srt_to_chrono sub.start + offsetMs)
        end_ := chrono_to_srt (srt_to_chrono sub.end_ + offsetMs)
        text := stripped.map (styleLine pos ct.1 ct.2)
        line_position := none }) }

/-! ## Merge engine (`merge` in `merge.rs`) -/

/-- The renumbering loop of `merge`:
`for i in 0..len \x7b subs[i].sequence = i as u32 + 1 \x7d`, i.e. the cue at
0-based index `i` receives sequence number `k + i` when started at `k`. -/
def renumberFrom : Nat → List SrtSubtitle → List SrtSubtitle
  | _, [] => []
  | k, s :: rest => { s with sequence := k } :: renumberFrom (k + 1) rest

/-- The per-cue text rewrite of track 2's cloned cues inside `merge`:
every line gets the supplied position tag and color pair. -/
def styleTrack2 (c : Option String) (p : SubPosition) (sub : SrtSubtitle) : SrtSubtitle :=
  { sub with text := sub.text.map (styleLine (posTag p) (colorTags c).1 (colorTags c).2) }

/-- `merge` from `merge.rs` (lines 141-168): clones track 2's cues,
rewrites every text line of track 2 with the supplied position tag and
color pair, appends them to track 1's cues, and renumbers the result
contiguously from 1.  NOTE: `main.rs` invokes `merge(srt1, srt2)` with
two arguments, which does not match this four-parameter signature; the
model keeps the `merge.rs` definition, and the recursive pipeline below
passes track 2's color/position for the two extra parameters. -/
def merge (srt1 srt2 : SubRip) (srt2_color_opt : Option String)
    (srt2_position : SubPosition) : SubRip :=
  let subs := srt2.subtitles.map (styleTrack2 srt2_color_opt srt2_position)
  { subtitles := renumberFrom 1 (srt1.subtitles ++ subs) }

/-! ## Format adapter (`load_sub` and the VTT conversion in `merge.rs`) -/

/-- `subtp::vtt::VttTimestamp` (the fields `vtt_block_to_srt` reads). -/
structure VttTimestamp where
  hours : Nat
  minutes : Nat
  seconds : Nat
  milliseconds : Nat
deriving DecidableEq, Repr

/-- `subtp::vtt::VttTimings`: the start/end pair of a cue block. -/
structure VttTimings where
  start : VttTimestamp
  end_ : VttTimestamp
deriving DecidableEq, Repr

/-- The cue payload of a `VttBlock::Que` block. -/
structure VttQue where
  timings : VttTimings
  payload : List String
deriving DecidableEq, Repr

/-- `subtp::vtt::VttBlock`: either a cue block or one of the non-cue
block kinds (header, comment, style, region), which the program treats
uniformly by dropping them, so they are collapsed into `nonCue`. -/
inductive VttBlock where
  | que (q : VttQue)
  | nonCue
deriving DecidableEq, Repr

/-- `subtp::vtt::WebVtt`, iterated block by block by `vtt_to_subrip`. -/
def WebVtt := List VttBlock

/-- `vtt_block_to_srt` from `merge.rs`: a cue block becomes an SRT cue
with the given sequence number, unchanged fields and `line_position`
`None`; any other block becomes `none`. -/
def vtt_block_to_srt (vtt_block : VttBlock) (sequence : Nat) : Option SrtSubtitle :=
  match vtt_block with
  | .que cue =>
    some
      { sequence := sequence
        start := ⟨cue.timings.start.hours, cue.timings.start.minutes,
                  cue.timings.start.seconds, cue.timings.start.milliseconds⟩
        end_ := ⟨cue.timings.end_.hours, cue.timings.end_.minutes,
                 cue.timings.end_.seconds, cue.timings.end_.milliseconds⟩
        text := cue.payload
        line_position := none }
  | .nonCue => none

/-- The counter loop of `vtt_to_subrip`: `i` starts at 1 and is
incremented for every block (also the dropped non-cue ones). -/
def vtt_to_subrip_go : Nat → List VttBlock → List SrtSubtitle
  | _, [] => []
  | i, b :: rest =>
    match vtt_block_to_srt b i with
    | some sub => sub :: vtt_to_subrip_go (i + 1) rest
    | none => vtt_to_subrip_go (i + 1) rest

/-- `vtt_to_subrip` from `merge.rs`. -/
def vtt_to_subrip (vtt : WebVtt) : SubRip :=
  { subtitles := vtt_to_subrip_go 1 vtt }

/-- The error kinds `load_sub` can surface: an unrecognized extension
(the `bail!` whose message names the offending extension), or a parse
failure of the underlying codec propagated with `?`. -/
inductive LoadError where
  | unsupportedFormat (ext : String)
  | malformed (msg : String)
deriving DecidableEq, Repr

/-- `load_sub` from `merge.rs`: dispatch on the file extension exactly
as written (`match ext`); the raw `SubRip::parse`/`WebVtt::parse` codecs
are opaque collaborators, so their outcome on the file's content is
passed in as `parseSrt`/`parseVtt`. -/
def load_sub (ext : String) (parseSrt : Except String SubRip)
    (parseVtt : Except String WebVtt) : Except LoadError SubRip :=
  if ext = "vtt" then
    match parseVtt with
    | .ok v => .ok (vtt_to_subrip v)
    | .error e => .error (.malformed e)
  else if ext = "srt" then
    match parseSrt with
    | .ok s => .ok s
    | .error e => .error (.malformed e)
  else .error (.unsupportedFormat ext)

/-- Modelled from the spec: the Format Adapter contract of §4.4 says
dispatch happens "on the lowercased extension"; this variant follows
those words (the lowercasing itself is modelled character-wise on the
extension's characters).  It exists only to be compared with `load_sub`,
which is translated from the source and does not lowercase. -/
def load_sub_lowered (ext : String) (parseSrt : Except String SubRip)
    (parseVtt : Except String WebVtt) : Except LoadError SubRip :=
  load_sub (String.mk (ext.toList.map Char.toLower)) parseSrt parseVtt

deriving instance DecidableEq for Except

/-! ## Filename matcher (`get_sub_path_regex` in `merge.rs`)

`get_sub_path_regex` builds the pattern
`[^\.]+\.(?P<lang>L1|L2)(\.(?P<hearing>hi))?\.(?P<ext>srt|vtt)$`
by string concatenation and `find_matching_subtitle_files` applies it
with `Regex::captures` (leftmost-first match, anchored at the end of the
filename only).  The functions below are an executable semantics of
that fixed pattern shape: start positions are tried left to right, the
`[^\.]+` atom is forced to the run of non-dot characters ending at the
next dot, the `L1|L2` alternation tries the two language codes in order
as literal strings (the §4.1 contract trusts them to be plain
identifiers without regex metacharacters), the optional `\.hi` group is
tried greedily first, and the extension alternation must consume the
rest of the filename. -/

/-- The regex string itself, exactly as concatenated in `merge.rs`. -/
def get_sub_path_regex (lang1 lang2 : String) (find_vtt : Bool) : String :=
  let langs := lang1 ++ "|" ++ lang2
  let ext := if find_vtt then ("srt|vtt") else ("srt")
  "[^\\.]+\\.(?P<lang>" ++ langs ++ ")(\\.(?P<hearing>hi))?\\.(?P<ext>" ++ ext ++ ")$"

/-- Literal-prefix matcher: `dropLit p s = some r` iff `s = p ++ r`. -/
def dropLit : List Char → List Char → Option (List Char)
  | [], s => some s
  | _ :: _, [] => none
  | p :: ps, c :: cs => if p = c then dropLit ps cs else none

/-- End of the pattern: the remaining input must be exactly a dot
followed by one of the allowed extensions (`srt`, plus `vtt` when the
flag is set), tried in alternation order. -/
def matchExtEnd (exts : List (List Char)) : List Char → Option (List Char)
  | c :: rest => if c = '.' then exts.find? (fun e => e == rest) else none
  | [] => none

/-- The part of the pattern after `[^\.]+\.`: try each language code in
alternation order; after a code, greedily try the optional `\.hi` group
and backtrack to the no-`hi` branch if the tail does not finish. -/
def tryLangs (exts : List (List Char)) : List (List Char) → List Char →
    Option (List Char × Bool × List Char)
  | [], _ => none
  | L :: Ls, s =>
    match dropLit L s with
    | none => tryLangs exts Ls s
    | some rest =>
      match dropLit ['.', 'h', 'i'] rest with
      | some rest2 =>
        match matchExtEnd exts rest2 with
        | some e => some (L, true, e)
        | none =>
          match matchExtEnd exts rest with
          | some e => some (L, false, e)
          | none => tryLangs exts Ls s
      | none =>
        match matchExtEnd exts rest with
        | some e => some (L, false, e)
        | none => tryLangs exts Ls s

/-- One attempt of the whole pattern at a fixed start position: consume
the maximal nonempty dotless run (`[^\.]+` followed by `\.` makes it
reach exactly the next dot), the dot, then the language part. -/
def tryHere (langs exts : List (List Char)) (s : List Char) :
    Option (List Char × Bool × List Char) :=
  let x := s.takeWhile (fun c => c != '.')
  if x.isEmpty then none
  else
    match s.dropWhile (fun c => c != '.') with
    | c :: rest => if c = '.' then tryLangs exts langs rest else none
    | [] => none

/-- `Regex::captures`: try every start position from the left and
return the first successful attempt's captures. -/
def searchFrom (langs exts : List (List Char)) : List Char →
    Option (List Char × Bool × List Char)
  | [] => none
  | c :: cs =>
    match tryHere langs exts (c :: cs) with
    | some r => some r
    | none => searchFrom langs exts cs

/-- The allowed extension alternation: `srt|vtt` when `find_vtt` is
set, `srt` alone otherwise. -/
def allowedExts (find_vtt : Bool) : List (List Char) :=
  if find_vtt then [("srt").toList, ("vtt").toList] else [("srt").toList]

/-- Applying the compiled matcher of `get_sub_path_regex lang1 lang2
find_vtt` to a filename: on a match, the captured language, the
presence of the `hearing` group, and the captured extension. -/
def subCapture (lang1 lang2 : String) (find_vtt : Bool) (name : String) :
    Option (String × Bool × String) :=
  (searchFrom [lang1.toList, lang2.toList] (allowedExts find_vtt) name.toList).map
    (fun r => (String.mk r.1, r.2.1, String.mk r.2.2))

/-- The characters contributed by the optional `\.hi` group: the
literal `.hi` when the group is taken, nothing otherwise. -/
def hstr : Bool → List Char
  | true => ['.', 'h', 'i']
  | false => []

/-! ## Pair resolution and the recursive pipeline (`main.rs`, `merge.rs`) -/

/-- `SubFile` from `merge.rs`: a discovered file.  Paths are modelled as
the file's name (all files the resolver compares live in one directory). -/
structure SubFile where
  path : String
  lang : String
  hi : Bool
deriving DecidableEq, Repr

/-- `base_file_stem` from `merge.rs`: the first maximal run of non-dot
characters of the filename (`Regex::find` of `[^\.]+`); `none` when the
name has no non-dot character (the Rust function then fails). -/
def base_file_stem (p : String) : Option String :=
  let cs := p.toList.dropWhile (fun c => c == '.')
  let x := cs.takeWhile (fun c => c != '.')
  if x.isEmpty then none else some (String.mk x)

/-- One iteration of the inner `for sub2 in &subs` loop of the
recursive branch of `main` (main.rs lines 314-326), on the state
`(l1, l2)`: both stems are computed fallibly (the `?` aborts the whole
run), and on a stem/language match `l1`/`l2` are overwritten exactly
under the source's `!hi || is_none` conditions. -/
def selectStep (lang1 lang2 : String) (sub1 sub2 : SubFile)
    (st : Option SubFile × Option SubFile) :
    Except String (Option SubFile × Option SubFile) :=
  match base_file_stem sub1.path with
  | none => .error ("unable to compute filestem")
  | some b1 =>
    match base_file_stem sub2.path with
    | none => .error ("unable to compute filestem")
    | some b2 =>
      if b1 = b2 ∧ sub1.lang = lang1 ∧ sub2.lang = lang2 then
        .ok (if !sub1.hi ∨ st.1.isNone then some sub1 else st.1,
          if !sub2.hi ∨ st.2.isNone then some sub2 else st.2)
      else
        .ok st

/-- The full inner `for sub2 in &subs` loop, folding `selectStep` over
the directory's file list from the initial state `(None, None)`. -/
def selectGo (lang1 lang2 : String) (sub1 : SubFile) :
    List SubFile → (Option SubFile × Option SubFile) →
    Except String (Option SubFile × Option SubFile)
  | [], st => .ok st
  | sub2 :: rest, st =>
    match selectStep lang1 lang2 sub1 sub2 st with
    | .error e => .error e
    | .ok st' => selectGo lang1 lang2 sub1 rest st'

/-- The transform/merge parameters of the `Recursive` subcommand. -/
structure RecParams where
  lang1 : String
  lang2 : String
  sub1_color : Option String
  sub2_color : Option String
  sub1_position : SubPosition
  sub2_position : SubPosition
  sub1_offsetMs : Int
  sub2_offsetMs : Int
  out_ext : String
deriving Repr

/-- The body run for one resolved pair (main.rs lines 329-357): load
both files (the loader abstracts `load_sub` applied to the file's
content; its error aborts via `?`), apply the per-track changes, derive
the output path `dir.join(base_file_stem(s1).with_extension(out_ext))`,
and merge.  Returns the written path and content. -/
def processPair (load : String → Except String SubRip) (P : RecParams)
    (dir : String) (s1 s2 : SubFile) : Except String (String × SubRip) :=
  match load s1.path with
  | .error e => .error e
  | .ok srt1 =>
    match load s2.path with
    | .error e => .error e
    | .ok srt2 =>
      match base_file_stem s1.path with
      | none => .error ("unable to compute filestem")
      | some no_ext =>
        .ok (dir ++ "/" ++ no_ext ++ "." ++ P.out_ext,
          merge (apply_sub_changes srt1 P.sub1_color P.sub1_position P.sub1_offsetMs)
            (apply_sub_changes srt2 P.sub2_color P.sub2_position P.sub2_offsetMs)
            P.sub2_color P.sub2_position)

/-- The outer `for sub1 in &subs` loop over one directory's matched
files (main.rs lines 310-358): for each `sub1` run the selection loop
over the whole list `subsAll`; when both languages resolved, process
and write the pair.  The first error ends the run, keeping the files
already written; the result is the ordered write log together with the
error, if any, that aborted the loop. -/
def runSubs (load : String → Except String SubRip) (P : RecParams)
    (dir : String) (subsAll : List SubFile) :
    List SubFile → List (String × SubRip) × Option String
  | [] => ([], none)
  | sub1 :: rest =>
    match selectGo P.lang1 P.lang2 sub1 subsAll (none, none) with
    | .error e => ([], some e)
    | .ok (some s1, some s2) =>
      match processPair load P dir s1 s2 with
      | .error e => ([], some e)
      | .ok w =>
        let r := runSubs load P dir subsAll rest
        (w :: r.1, r.2)
    | .ok _ => runSubs load P dir subsAll rest

/-- The state of the output files after a sequence of writes
(`File::create` truncates, so the last write to a path wins). -/
def finalDisk (writes : List (String × SubRip)) (p : String) : Option SubRip :=
  writes.foldl (fun acc w => if w.1 = p then some w.2 else acc) none

/-- The match condition of the inner selection loop, once both stems
are known to be computable: same base stem, `sub1` has language 1 and
`t` has language 2. -/
def matchCond (lang1 lang2 : String) (sub1 t : SubFile) : Prop :=
  base_file_stem sub1.path = base_file_stem t.path ∧
    sub1.lang = lang1 ∧ t.lang = lang2

instance (lang1 lang2 : String) (sub1 t : SubFile) :
    Decidable (matchCond lang1 lang2 sub1 t) := by
  unfold matchCond; infer_instance

/-- The inner selection loop with the stem computations resolved: the
pure fold `selectGo` performs when every stem is defined. -/
def selectPure (lang1 lang2 : String) (sub1 : SubFile) :
    List SubFile → (Option SubFile × Option SubFile) →
    (Option SubFile × Option SubFile)
  | [], st => st
  | sub2 :: rest, st =>
    selectPure lang1 lang2 sub1 rest
      (if matchCond lang1 lang2 sub1 sub2 then
        (if !sub1.hi ∨ st.1.isNone then some sub1 else st.1,
          if !sub2.hi ∨ st.2.isNone then some sub2 else st.2)
      else st)

/-- The accumulator evolution of the language-2 slot alone. -/
def pick2Acc : List SubFile → Option SubFile → Option SubFile
  | [], a => a
  | t :: r, a => pick2Acc r (if !t.hi ∨ a.isNone then some t else a)

/-- What the language-2 slot ends up holding, given the matching files
in input order: the last non-hearing-impaired one when any exists,
otherwise the first (necessarily hearing-impaired) one. -/
def pickLang2 (ms : List SubFile) : Option SubFile :=
  if (ms.filter (fun t => !t.hi)).isEmpty then ms.head?
  else (ms.filter (fun t => !t.hi)).getLast?

/-- The language-2 file the selection loop pairs with candidate `s`
(the `getD` default is never reached when a match exists). -/
def chosen2 (lang1 lang2 : String) (subs : List SubFile) (s : SubFile) : SubFile :=
  (pickLang2 (subs.filter (fun t => decide (matchCond lang1 lang2 s t)))).getD s

/-- The load-transform-merge content produced for a resolved pair. -/
def pipelineContent (ld : String → SubRip) (P : RecParams) (s1 s2 : SubFile) : SubRip :=
  merge (apply_sub_changes (ld s1.path) P.sub1_color P.sub1_position P.sub1_offsetMs)
    (apply_sub_changes (ld s2.path) P.sub2_color P.sub2_position P.sub2_offsetMs)
    P.sub2_color P.sub2_position

/-! ## Sanity checks: concrete evaluations, including the cases of `test.rs` -/

example :
    (merge { subtitles := [⟨5, ⟨0, 0, 1, 0⟩, ⟨0, 0, 2, 0⟩, ["Hello"], none⟩] }
      { subtitles := [⟨9, ⟨0, 0, 3, 0⟩, ⟨0, 0, 4, 0⟩, ["World"], none⟩] }
      none .BottomCenter).subtitles.map (fun s => (s.sequence, s.text)) =
    [(1, ["Hello"]), (2, ["\x7b\\an2\x7d World"])] := by decide

example : chrono_to_srt (-3723678) = ⟨1, 2, 3, 678⟩ := by decide

example :
    (apply_sub_changes
      { subtitles := [⟨1, ⟨0, 0, 1, 0⟩, ⟨0, 0, 2, 0⟩, ["hi"], none⟩] }
      (some ("red")) .BottomCenter 0).subtitles.map (fun s => s.text) =
    [["\x7b\\an2\x7d <font color=\"red\">hi</font>"]] := by decide

example :
    load_sub ("SRT") (.ok { subtitles := [] }) (.error ("no vtt")) =
      .error (.unsupportedFormat ("SRT")) := by decide

example :
    load_sub_lowered ("SRT") (.ok { subtitles := [] }) (.error ("no vtt")) =
      .ok { subtitles := [] } := by decide

example : subCapture ("en") "ja" true ("movie.en.srt") = some ("en", false, "srt") := by decide
example : subCapture ("en") "ja" true ("movie.ja.vtt") = some ("ja", false, "vtt") := by decide
example : subCapture ("en") "ja" true ("song.en.hi.srt") = some ("en", true, "srt") := by decide
example : subCapture ("en") "ja" true ("movie.de.srt") = none := by decide
example : subCapture ("en") "ja" true ("movie.srt") = none := by decide
example : subCapture ("en") "ja" true ("movie.ja.txt") = none := by decide
example : subCapture ("en") "ja" true ("movie.enhi.vtt") = none := by decide
example : subCapture ("en") "ja" true ("movie.en.hisrt") = none := by decide
example : subCapture ("en") "ja" true ("movie..en.srt") = none := by decide
example : subCapture ("en") "ja" false ("movie.en.vtt") = none := by decide
example : subCapture ("en") "ja" false ("song.ja.hi.srt") = some ("ja", true, "srt") := by decide

example : base_file_stem ("movie.en.hi.srt") = some ("movie") := by decide
example : base_file_stem ("...") = none := by decide

example :
    selectGo ("en") "ja" ⟨"m.en.hi.srt", "en", true⟩
      [⟨"m.en.srt", "en", false⟩, ⟨"m.en.hi.srt", "en", true⟩, ⟨"m.ja.srt", "ja", false⟩]
      (none, none) = .ok (some ⟨"m.en.hi.srt", "en", true⟩, some ⟨"m.ja.srt", "ja", false⟩) := by decide

example :
    (runSubs (fun _ => .ok { subtitles := [] })
      ⟨"en", "ja", none, none, .BottomCenter, .TopCenter, 0, 0, "srt"⟩ "d"
      [⟨"m.en.srt", "en", false⟩, ⟨"m.en.hi.srt", "en", true⟩, ⟨"m.ja.srt", "ja", false⟩]
      [⟨"m.en.srt", "en", false⟩, ⟨"m.en.hi.srt", "en", true⟩, ⟨"m.ja.srt", "ja", false⟩]).1.map Prod.fst
    = ["d/m.srt", "d/m.srt"] := by decide

/-! ## Helper lemmas about the merge renumbering -/

theorem renumberFrom_length (k : Nat) (l : List SrtSubtitle) :
    (renumberFrom k l).length = l.length := by
  induction l generalizing k with
  | nil => rfl
  | cons s rest ih => simp [renumberFrom, ih]

theorem renumberFrom_map_sequence (k : Nat) (l : List SrtSubtitle) :
    (renumberFrom k l).map (fun s => s.sequence) = List.range' k l.length := by
  induction l generalizing k with
  | nil => rfl
  | cons s rest ih => simp [renumberFrom, ih, List.range'_succ]

theorem renumberFrom_forget (k : Nat) (l : List SrtSubtitle) :
    (renumberFrom k l).map (fun s => { s with sequence := 0 }) =
      l.map (fun s => { s with sequence := 0 }) := by
  induction l generalizing k with
  | nil => rfl
  | cons s rest ih => simp [renumberFrom, ih]

/-! ## Claim C6 -/

/-- C6: `chrono_to_srt` renders a signed duration through the absolute
value of its total milliseconds, so a duration and its negation (in
particular a total pushed below zero by a negative offset) produce the
identical timestamp of the magnitude — no negative, clamped or erroring
result. -/
theorem claim_C6_abs_render (d : Int) :
    chrono_to_srt d = chrono_to_srt (Int.natAbs d) ∧
      chrono_to_srt (-d) = chrono_to_srt d := by
  unfold chrono_to_srt
  simp [Int.natAbs_abs]

/-! ## Claim C3 -/

/-- C3, counterexample to the claim as stated: merging two one-cue
tracks does not yield track 1's cues followed by track 2's cues merely
renumbered, because `merge` also rewrites track 2's text lines with the
position tag (and color pair). -/
theorem claim_C3_counterexample :
    (merge { subtitles := [⟨5, ⟨0, 0, 1, 0⟩, ⟨0, 0, 2, 0⟩, ["Hello"], none⟩] }
        { subtitles := [⟨9, ⟨0, 0, 3, 0⟩, ⟨0, 0, 4, 0⟩, ["World"], none⟩] }
        none .BottomCenter).subtitles ≠
      renumberFrom 1
        ([⟨5, ⟨0, 0, 1, 0⟩, ⟨0, 0, 2, 0⟩, ["Hello"], none⟩] ++
          [⟨9, ⟨0, 0, 3, 0⟩, ⟨0, 0, 4, 0⟩, ["World"], none⟩]) := by decide

/-- C3, amended: for every two input tracks the merge result has length
`n1 + n2`, its sequence numbers are exactly `1` through `n1 + n2` in
order with no gaps or repeats, regardless of the input cues' original
sequence numbers, and — apart from the sequence renumbering — its cues
are track 1's cues followed by track 2's cues with the position/color
markup applied to track 2's text lines. -/
theorem claim_C3_amended (srt1 srt2 : SubRip) (c : Option String) (p : SubPosition) :
    (merge srt1 srt2 c p).subtitles.length =
        srt1.subtitles.length + srt2.subtitles.length ∧
      (merge srt1 srt2 c p).subtitles.map (fun s => s.sequence) =
        List.range' 1 (srt1.subtitles.length + srt2.subtitles.length) ∧
      (merge srt1 srt2 c p).subtitles.map (fun s => { s with sequence := 0 }) =
        (srt1.subtitles ++ srt2.subtitles.map (styleTrack2 c p)).map
          (fun s => { s with sequence := 0 }) := by
  refine ⟨?_, ?_, ?_⟩
  · simp [merge, renumberFrom_length]
  · simp [merge, renumberFrom_map_sequence]
  · simp [merge, renumberFrom_forget]

/-! ## Claim C9 -/

/-- C9: evaluation of `merge` at the failing input.  The merge step does
not leave cue text untouched: track 2's cue text is rewritten with the
position tag, so the output texts differ from the inputs' texts.  (The
claim matches the contract of §4.6 and `main.rs`'s two-argument call
site `merge(srt1, srt2)`; the extra styling in `merge.rs` contradicts
that caller.) -/
theorem claim_C9_eval :
    (merge { subtitles := [⟨7, ⟨0, 0, 1, 0⟩, ⟨0, 0, 2, 0⟩, ["Hello"], none⟩] }
        { subtitles := [⟨3, ⟨0, 0, 1, 500⟩, ⟨0, 0, 2, 500⟩, ["World"], none⟩] }
        none .BottomCenter).subtitles.map (fun s => s.text) =
      [["Hello"], ["\x7b\\an2\x7d World"]] ∧
    ([["Hello"], ["\x7b\\an2\x7d World"]] : List (List String)) ≠
      [["Hello"], ["World"]] := by decide

/-! ## Claim C5 -/

/-- C5, counterexample to the claim as stated: with a color supplied the
transformer does not wrap the position-prefixed text (the opening color
tag does not precede the position marker); the position marker comes
first and the color pair wraps only the original line. -/
theorem claim_C5_counterexample :
    (apply_sub_changes
        { subtitles := [⟨1, ⟨0, 0, 1, 0⟩, ⟨0, 0, 2, 0⟩, ["hi"], none⟩] }
        (some ("red")) .BottomCenter 0).subtitles.map (fun s => s.text) =
      [["\x7b\\an2\x7d <font color=\"red\">hi</font>"]] ∧
    ([["\x7b\\an2\x7d <font color=\"red\">hi</font>"]] : List (List String)) ≠
      [["<font color=\"red\">\x7b\\an2\x7d hi</font>"]] := by decide

/-- C5, amended: the Track Transformer rewrites every (an8-stripped)
text line so that the position marker and a space come first and the
color markup pair wraps only the original line after them; with no
color supplied the line is unchanged apart from that position prefix. -/
theorem claim_C5_amended (srt : SubRip) (col : String) (p : SubPosition) (m : Int) :
    ((apply_sub_changes srt (some col) p m).subtitles.map (fun s => s.text) =
        srt.subtitles.map (fun s => s.text.map (fun line =>
          posTag p ++ " " ++ ("<font color=\"" ++ col ++ "\">") ++
            dropAn8 line ++ "</font>"))) ∧
      ((apply_sub_changes srt none p m).subtitles.map (fun s => s.text) =
        srt.subtitles.map (fun s => s.text.map (fun line =>
          posTag p ++ " " ++ dropAn8 line))) := by
  constructor <;>
    simp [apply_sub_changes, styleLine, colorTags, Function.comp, String.append_assoc]

/-! ## Claim C8 -/

/-- C8, counterexample to the claim as stated: dispatch is not on the
lowercased extension — `load_sub` on extension `SRT` fails with the
unsupported-format error naming `SRT`, while the lowercased-dispatch
reading of the spec would parse it as SubRip. -/
theorem claim_C8_counterexample :
    load_sub ("SRT") (.ok { subtitles := [] }) (.error ("unparsed")) =
        .error (.unsupportedFormat ("SRT")) ∧
      load_sub_lowered ("SRT") (.ok { subtitles := [] }) (.error ("unparsed")) =
        .ok { subtitles := [] } ∧
      load_sub ("SRT") (.ok { subtitles := [] }) (.error ("unparsed")) ≠
        load_sub_lowered ("SRT") (.ok { subtitles := [] }) (.error ("unparsed")) := by
  decide

/-- C8, amended: the Format Adapter dispatches on the exact,
case-sensitive extension: `srt` parses directly into the Track model,
`vtt` parses into the VTT structure and converts its cue blocks, and
every other extension — including uppercase variants such as `SRT` —
fails with the unsupported-format error naming the offending
extension. -/
theorem claim_C8_amended (ext : String) (ps : Except String SubRip)
    (pv : Except String WebVtt) :
    load_sub ("srt") ps pv = ps.mapError LoadError.malformed ∧
      load_sub ("vtt") ps pv =
        (pv.map vtt_to_subrip).mapError LoadError.malformed ∧
      (ext ≠ "srt" → ext ≠ "vtt" →
        load_sub ext ps pv = .error (.unsupportedFormat ext)) := by
  refine ⟨?_, ?_, fun h1 h2 => ?_⟩
  · cases ps <;> simp [load_sub, Except.mapError]
  · cases pv <;> simp [load_sub, Except.mapError, Except.map]
  · simp [load_sub, h1, h2]

/-- C8, witness for the amended theorem at the concrete extension
`SRT`. -/
theorem claim_C8_amended_witness :
    load_sub ("SRT") (.ok { subtitles := [] }) (.error ("x")) =
      .error (.unsupportedFormat ("SRT")) :=
  (claim_C8_amended ("SRT") (.ok { subtitles := [] }) (.error ("x"))).2.2
    (by decide) (by decide)

/-! ## Claim C7 -/

theorem srt_to_chrono_eq_natCast (t : SrtTimestamp) :
    srt_to_chrono t =
      ((t.hours * 3600000 + t.minutes * 60000 + t.seconds * 1000 +
        t.milliseconds : Nat) : Int) := by
  unfold srt_to_chrono
  push_cast
  ring

theorem chrono_to_srt_roundtrip (t : SrtTimestamp) (h : validTs t) :
    chrono_to_srt (srt_to_chrono t) = t := by
  obtain ⟨h1, h2, h3, h4⟩ := h
  cases t with
  | mk hh mm ss ms =>
    simp only [srt_to_chrono_eq_natCast, chrono_to_srt, Int.natAbs_ofNat]
    simp only [SrtTimestamp.mk.injEq] at *
    refine ⟨?_, ?_, ?_, ?_⟩ <;> omega

theorem srt_to_chrono_of_chrono_to_srt (v : Int) (h0 : 0 ≤ v)
    (h1 : v < 256 * 3600000) :
    srt_to_chrono (chrono_to_srt v) = v := by
  obtain ⟨n, rfl⟩ : ∃ n : Nat, v = (n : Int) := ⟨v.toNat, (Int.toNat_of_nonneg h0).symm⟩
  have hn : n < 256 * 3600000 := by exact_mod_cast h1
  simp only [chrono_to_srt, Int.natAbs_ofNat, srt_to_chrono_eq_natCast]
  congr 1
  omega

/-- C7, counterexample to the claim as stated: a track with one cue at
00:00:01,000 → 00:00:02,000, shifted by offset −5 s and then by +5 s
(`f32_to_chrono` maps ±5.0 s exactly to ±5000 ms), ends at
00:00:09,000 → 00:00:08,000 instead of the original timestamps: the
intermediate negative total is rendered as its absolute value, so the
inverse offset does not undo the first one. -/
theorem claim_C7_counterexample :
    (apply_sub_changes
        (apply_sub_changes
          { subtitles := [⟨1, ⟨0, 0, 1, 0⟩, ⟨0, 0, 2, 0⟩, ["hi"], none⟩] }
          none .BottomCenter (-5000))
        none .BottomCenter 5000).subtitles.map (fun s => (s.start, s.end_)) =
      [(⟨0, 0, 9, 0⟩, ⟨0, 0, 8, 0⟩)] ∧
    ([((⟨0, 0, 9, 0⟩ : SrtTimestamp), (⟨0, 0, 8, 0⟩ : SrtTimestamp))] :
        List (SrtTimestamp × SrtTimestamp)) ≠
      [(⟨0, 0, 1, 0⟩, ⟨0, 0, 2, 0⟩)] := by decide

/-- C7, amended: on every track whose cue timestamps have valid field
ranges, a zero offset leaves all start/end timestamps unchanged; and
applying offset `m` (in milliseconds) followed by offset `-m` restores
all timestamps provided no intermediate total falls below zero or
reaches the 256-hour wrap of the `u8` hours cast. -/
theorem claim_C7_amended (srt : SubRip) (c1 c2 : Option String)
    (p1 p2 : SubPosition) (m : Int)
    (hv : ∀ s ∈ srt.subtitles, validTs s.start ∧ validTs s.end_)
    (hr : ∀ s ∈ srt.subtitles,
      0 ≤ srt_to_chrono s.start + m ∧
        srt_to_chrono s.start + m < 256 * 3600000 ∧
        0 ≤ srt_to_chrono s.end_ + m ∧
        srt_to_chrono s.end_ + m < 256 * 3600000) :
    (apply_sub_changes srt c1 p1 0).subtitles.map (fun s => (s.start, s.end_)) =
        srt.subtitles.map (fun s => (s.start, s.end_)) ∧
      (apply_sub_changes (apply_sub_changes srt c1 p1 m) c2 p2
            (-m)).subtitles.map (fun s => (s.start, s.end_)) =
        srt.subtitles.map (fun s => (s.start, s.end_)) := by
  constructor
  · simp only [apply_sub_changes, List.map_map]
    refine List.map_congr_left (fun s hs => ?_)
    obtain ⟨hvs, hve⟩ := hv s hs
    simp [chrono_to_srt_roundtrip _ hvs, chrono_to_srt_roundtrip _ hve]
  · simp only [apply_sub_changes, List.map_map]
    refine List.map_congr_left (fun s hs => ?_)
    obtain ⟨hvs, hve⟩ := hv s hs
    obtain ⟨hr1, hr2, hr3, hr4⟩ := hr s hs
    simp only [Function.comp]
    rw [srt_to_chrono_of_chrono_to_srt _ hr1 hr2,
      srt_to_chrono_of_chrono_to_srt _ hr3 hr4]
    simp [chrono_to_srt_roundtrip _ hvs, chrono_to_srt_roundtrip _ hve]

/-- C7, witness for the amended theorem on a concrete one-cue track
with offset 1000 ms. -/
theorem claim_C7_amended_witness :
    (apply_sub_changes
          { subtitles := [⟨1, ⟨0, 0, 1, 0⟩, ⟨0, 0, 2, 0⟩, ["hi"], none⟩] }
          none .BottomCenter 0).subtitles.map (fun s => (s.start, s.end_)) =
        [((⟨0, 0, 1, 0⟩ : SrtTimestamp), (⟨0, 0, 2, 0⟩ : SrtTimestamp))] ∧
      (apply_sub_changes
          (apply_sub_changes
            { subtitles := [⟨1, ⟨0, 0, 1, 0⟩, ⟨0, 0, 2, 0⟩, ["hi"], none⟩] }
            none .BottomCenter 1000)
          none .BottomCenter (-1000)).subtitles.map (fun s => (s.start, s.end_)) =
        [((⟨0, 0, 1, 0⟩ : SrtTimestamp), (⟨0, 0, 2, 0⟩ : SrtTimestamp))] :=
  claim_C7_amended
    { subtitles := [⟨1, ⟨0, 0, 1, 0⟩, ⟨0, 0, 2, 0⟩, ["hi"], none⟩] }
    none none .BottomCenter .BottomCenter 1000 (by decide) (by decide)

/-! ## Selection-loop characterization (claims C1, C4, C10) -/

theorem selectStep_eq (lang1 lang2 : String) (sub1 sub2 : SubFile)
    (st : Option SubFile × Option SubFile) (b1 b2 : String)
    (hb1 : base_file_stem sub1.path = some b1)
    (hb2 : base_file_stem sub2.path = some b2) :
    selectStep lang1 lang2 sub1 sub2 st =
      .ok (if matchCond lang1 lang2 sub1 sub2 then
        (if !sub1.hi ∨ st.1.isNone then some sub1 else st.1,
          if !sub2.hi ∨ st.2.isNone then some sub2 else st.2)
      else st) := by
  have hcond : (b1 = b2 ∧ sub1.lang = lang1 ∧ sub2.lang = lang2) ↔
      matchCond lang1 lang2 sub1 sub2 := by
    unfold matchCond
    rw [hb1, hb2]
    simp
  simp only [selectStep, hb1, hb2]
  by_cases hc : matchCond lang1 lang2 sub1 sub2
  · rw [if_pos (hcond.mpr hc), if_pos hc]
  · rw [if_neg (fun h => hc (hcond.mp h)), if_neg hc]

theorem selectGo_eq_pure (lang1 lang2 : String) (sub1 : SubFile)
    (l : List SubFile) (st : Option SubFile × Option SubFile)
    (h1 : (base_file_stem sub1.path).isSome)
    (hall : ∀ s ∈ l, (base_file_stem s.path).isSome) :
    selectGo lang1 lang2 sub1 l st = .ok (selectPure lang1 lang2 sub1 l st) := by
  induction l generalizing st with
  | nil => rfl
  | cons sub2 rest ih =>
    obtain ⟨b1, hb1⟩ := Option.isSome_iff_exists.mp h1
    obtain ⟨b2, hb2⟩ := Option.isSome_iff_exists.mp (hall sub2 (by simp))
    have hrest : ∀ s ∈ rest, (base_file_stem s.path).isSome :=
      fun s hs => hall s (by simp [hs])
    rw [selectGo, selectStep_eq lang1 lang2 sub1 sub2 st b1 b2 hb1 hb2]
    rw [selectPure]
    exact ih _ hrest

theorem selectPure_snd (lang1 lang2 : String) (sub1 : SubFile) (l : List SubFile)
    (st : Option SubFile × Option SubFile) :
    (selectPure lang1 lang2 sub1 l st).2 =
      pick2Acc (l.filter (fun t => decide (matchCond lang1 lang2 sub1 t))) st.2 := by
  induction l generalizing st with
  | nil => rfl
  | cons t r ih =>
    by_cases hc : matchCond lang1 lang2 sub1 t
    · simp [selectPure, hc, pick2Acc, ih, List.filter_cons]
    · simp [selectPure, hc, ih, List.filter_cons]

theorem pick2Acc_eq (ms : List SubFile) (a : Option SubFile) :
    pick2Acc ms a =
      if (ms.filter (fun t => !t.hi)).isEmpty then
        (if a.isSome then a else ms.head?)
      else (ms.filter (fun t => !t.hi)).getLast? := by
  induction ms generalizing a with
  | nil => cases a <;> simp [pick2Acc]
  | cons t r ih =>
    cases ht : t.hi with
    | false =>
      rw [pick2Acc, if_pos (by simp [ht])]
      rw [ih]
      cases h : r.filter (fun t => !t.hi) with
      | nil => simp [List.filter_cons, ht, h]
      | cons x xs => simp [List.filter_cons, ht, h]
    | true =>
      cases a with
      | none =>
        rw [pick2Acc, if_pos (by simp)]
        rw [ih]
        simp [List.filter_cons, ht]
      | some v =>
        rw [pick2Acc, if_neg (by simp [ht])]
        rw [ih]
        simp [List.filter_cons, ht]

theorem selectPure_fst (lang1 lang2 : String) (sub1 : SubFile) (l : List SubFile)
    (st : Option SubFile × Option SubFile) (hst : st.1 = none ∨ st.1 = some sub1) :
    (selectPure lang1 lang2 sub1 l st).1 =
      if l.any (fun t => decide (matchCond lang1 lang2 sub1 t)) then some sub1
      else st.1 := by
  induction l generalizing st with
  | nil => simp [selectPure]
  | cons t r ih =>
    by_cases hc : matchCond lang1 lang2 sub1 t
    · have h1 : (if !sub1.hi ∨ st.1.isNone then some sub1 else st.1) = some sub1 := by
        rcases hst with h | h <;> simp [h]
      rw [selectPure, if_pos hc]
      rw [ih _ (Or.inr (by simp only []; rw [h1]))]
      rw [h1]
      simp [hc, ite_self]
    · rw [selectPure, if_neg hc]
      rw [ih _ hst]
      simp [hc]

theorem pickLang2_of_ne_nil (ms : List SubFile) (h : ms ≠ []) :
    ∃ s2, pickLang2 ms = some s2 := by
  unfold pickLang2
  cases hf : ms.filter (fun t => !t.hi) with
  | nil =>
    cases ms with
    | nil => exact absurd rfl h
    | cons x xs => exact ⟨x, by simp [hf]⟩
  | cons y ys =>
    refine ⟨(y :: ys).getLast (by simp), ?_⟩
    simp [hf, List.getLast?_eq_getLast]

/-! ## Claim C1 -/

/-- C1, counterexample to the claim as stated: in the outer iteration
whose `sub1` is the hearing-impaired `en` file, the selection loop
selects that HI file itself for language 1 (and processes the pair),
even though a non-HI `en` file with the same base name is present in
the directory list — so the non-HI file is not "the one selected" for
language 1. -/
theorem claim_C1_counterexample :
    selectGo ("en") "ja" ⟨"m.en.hi.srt", "en", true⟩
        [⟨"m.en.srt", "en", false⟩, ⟨"m.en.hi.srt", "en", true⟩,
          ⟨"m.ja.srt", "ja", false⟩]
        (none, none) =
      .ok (some ⟨"m.en.hi.srt", "en", true⟩, some ⟨"m.ja.srt", "ja", false⟩) ∧
    (⟨"m.en.hi.srt", "en", true⟩ : SubFile).hi = true ∧
    (⟨"m.en.srt", "en", false⟩ : SubFile).hi = false ∧
    base_file_stem ("m.en.srt") = base_file_stem ("m.en.hi.srt") ∧
    ¬ ((⟨"m.en.hi.srt", "en", true⟩ : SubFile).hi = false) := by decide

/-- C1, amended: one outer iteration of the recursive pair-selection
loop, with candidate `sub1` and directory list `subs` (all stems
computable), resolves to: for language 1, `sub1` itself whenever any
same-stem language-2 file exists (so no non-HI preference is applied to
language 1 — each language-1 candidate is selected in its own
iteration); for language 2, `pickLang2` of the matching files in input
order, i.e. the last non-hearing-impaired match when one exists and
otherwise the first (hearing-impaired) match. -/
theorem claim_C1_amended (lang1 lang2 : String) (sub1 : SubFile)
    (subs : List SubFile)
    (h1 : (base_file_stem sub1.path).isSome)
    (hall : ∀ s ∈ subs, (base_file_stem s.path).isSome) :
    selectGo lang1 lang2 sub1 subs (none, none) =
      .ok (if subs.any (fun t => decide (matchCond lang1 lang2 sub1 t)) then
            some sub1
          else none,
        pickLang2 (subs.filter (fun t => decide (matchCond lang1 lang2 sub1 t)))) := by
  rw [selectGo_eq_pure lang1 lang2 sub1 subs (none, none) h1 hall]
  congr 1
  refine Prod.ext ?_ ?_
  · simpa using selectPure_fst lang1 lang2 sub1 subs (none, none) (Or.inl rfl)
  · rw [selectPure_snd, pick2Acc_eq]
    simp [pickLang2]

/-- C1, witness for the amended theorem: the non-HI candidate's own
iteration on a concrete three-file directory list. -/
theorem claim_C1_amended_witness :
    selectGo ("en") "ja" ⟨"m.en.srt", "en", false⟩
        [⟨"m.en.srt", "en", false⟩, ⟨"m.en.hi.srt", "en", true⟩,
          ⟨"m.ja.srt", "ja", false⟩]
        (none, none) =
      .ok (some ⟨"m.en.srt", "en", false⟩, some ⟨"m.ja.srt", "ja", false⟩) := by
  rw [claim_C1_amended ("en") "ja" ⟨"m.en.srt", "en", false⟩
    [⟨"m.en.srt", "en", false⟩, ⟨"m.en.hi.srt", "en", true⟩,
      ⟨"m.ja.srt", "ja", false⟩] (by decide) (by decide)]
  decide

theorem processPair_total (ld : String → SubRip) (P : RecParams) (dir : String)
    (s1 s2 : SubFile) (b : String) (hb : base_file_stem s1.path = some b) :
    processPair (fun p => .ok (ld p)) P dir s1 s2 =
      .ok (dir ++ "/" ++ b ++ "." ++ P.out_ext, pipelineContent ld P s1 s2) := by
  simp only [processPair, hb, pipelineContent]

theorem runSubs_cons_neg (load : String → Except String SubRip) (P : RecParams)
    (dir : String) (subsAll : List SubFile) (sub1 : SubFile) (rest : List SubFile)
    (h1 : (base_file_stem sub1.path).isSome)
    (hall : ∀ s ∈ subsAll, (base_file_stem s.path).isSome)
    (hany : subsAll.any (fun t => decide (matchCond P.lang1 P.lang2 sub1 t)) = false) :
    runSubs load P dir subsAll (sub1 :: rest) = runSubs load P dir subsAll rest := by
  have hfst : (selectPure P.lang1 P.lang2 sub1 subsAll (none, none)).1 = none := by
    rw [selectPure_fst P.lang1 P.lang2 sub1 subsAll (none, none) (Or.inl rfl), hany]
    rfl
  have hpair : selectPure P.lang1 P.lang2 sub1 subsAll (none, none) =
      (none, (selectPure P.lang1 P.lang2 sub1 subsAll (none, none)).2) :=
    Prod.ext hfst rfl
  rw [runSubs, selectGo_eq_pure P.lang1 P.lang2 sub1 subsAll (none, none) h1 hall,
    hpair]

theorem runSubs_cons_pos (load : String → Except String SubRip) (P : RecParams)
    (dir : String) (subsAll : List SubFile) (sub1 s2 : SubFile) (rest : List SubFile)
    (h1 : (base_file_stem sub1.path).isSome)
    (hall : ∀ s ∈ subsAll, (base_file_stem s.path).isSome)
    (hany : subsAll.any (fun t => decide (matchCond P.lang1 P.lang2 sub1 t)) = true)
    (hs2 : pickLang2 (subsAll.filter
      (fun t => decide (matchCond P.lang1 P.lang2 sub1 t))) = some s2) :
    runSubs load P dir subsAll (sub1 :: rest) =
      match processPair load P dir sub1 s2 with
      | .error e => ([], some e)
      | .ok w =>
        (w :: (runSubs load P dir subsAll rest).1,
          (runSubs load P dir subsAll rest).2) := by
  have hfst : (selectPure P.lang1 P.lang2 sub1 subsAll (none, none)).1 = some sub1 := by
    rw [selectPure_fst P.lang1 P.lang2 sub1 subsAll (none, none) (Or.inl rfl), hany]
    rfl
  have hsnd : (selectPure P.lang1 P.lang2 sub1 subsAll (none, none)).2 = some s2 := by
    rw [selectPure_snd, pick2Acc_eq]
    rw [← hs2]
    simp [pickLang2]
  have hpair : selectPure P.lang1 P.lang2 sub1 subsAll (none, none) =
      (some sub1, some s2) := Prod.ext hfst hsnd
  rw [runSubs, selectGo_eq_pure P.lang1 P.lang2 sub1 subsAll (none, none) h1 hall,
    hpair]

theorem runSubs_total (ld : String → SubRip) (P : RecParams) (dir : String)
    (subsAll : List SubFile)
    (hall : ∀ s ∈ subsAll, (base_file_stem s.path).isSome) :
    ∀ iter : List SubFile, (∀ s ∈ iter, s ∈ subsAll) →
      runSubs (fun p => .ok (ld p)) P dir subsAll iter =
        ((iter.filter (fun s =>
            subsAll.any (fun t => decide (matchCond P.lang1 P.lang2 s t)))).map
          (fun c => (dir ++ "/" ++ (base_file_stem c.path).getD ("") ++ "." ++ P.out_ext,
            pipelineContent ld P c (chosen2 P.lang1 P.lang2 subsAll c))), none) := by
  intro iter
  induction iter with
  | nil => intro _; rfl
  | cons c rest ih =>
    intro hmem
    have hc : c ∈ subsAll := hmem c (by simp)
    have hcs : (base_file_stem c.path).isSome := hall c hc
    have hrest : ∀ s ∈ rest, s ∈ subsAll := fun s hs => hmem s (by simp [hs])
    by_cases hany : subsAll.any (fun t => decide (matchCond P.lang1 P.lang2 c t))
    · obtain ⟨t0, ht0, hpt0⟩ := List.any_eq_true.mp hany
      have hfil : subsAll.filter (fun t => decide (matchCond P.lang1 P.lang2 c t)) ≠ [] := by
        intro hnil
        have : t0 ∈ subsAll.filter (fun t => decide (matchCond P.lang1 P.lang2 c t)) :=
          List.mem_filter.mpr ⟨ht0, hpt0⟩
        rw [hnil] at this
        exact absurd this (List.not_mem_nil t0)
      obtain ⟨s2, hs2⟩ := pickLang2_of_ne_nil _ hfil
      obtain ⟨b, hb⟩ := Option.isSome_iff_exists.mp hcs
      have hch : chosen2 P.lang1 P.lang2 subsAll c = s2 := by
        unfold chosen2
        rw [hs2]
        rfl
      rw [runSubs_cons_pos (fun p => .ok (ld p)) P dir subsAll c s2 rest hcs hall hany hs2,
        processPair_total ld P dir c s2 b hb, ih hrest]
      simp [List.filter_cons, hany, hb, hch]
    · rw [runSubs_cons_neg (fun p => .ok (ld p)) P dir subsAll c rest hcs hall
        (by simpa using hany), ih hrest]
      simp [List.filter_cons, hany]

theorem finalDisk_foldl_map_const (g : SubFile → SubRip) (p : String)
    (l : List SubFile) :
    ∀ a : Option SubRip,
      (l.map (fun c => (p, g c))).foldl
          (fun acc w => if w.1 = p then some w.2 else acc) a =
        if l.isEmpty then a else (l.getLast?).map g := by
  induction l with
  | nil => intro a; rfl
  | cons x xs ih =>
    intro a
    simp only [List.map_cons, List.foldl_cons, eq_self_iff_true, if_true]
    rw [ih (some (g x))]
    cases xs with
    | nil => rfl
    | cons y ys => simp [List.getLast?_cons_cons]

theorem finalDisk_map_const (g : SubFile → SubRip) (p : String) (l : List SubFile) :
    finalDisk (l.map (fun c => (p, g c))) p = (l.getLast?).map g := by
  unfold finalDisk
  rw [finalDisk_foldl_map_const g p l none]
  cases l with
  | nil => rfl
  | cons x xs => rfl

/-! ## Claim C10 -/

/-- C10: in recursive mode, with every load succeeding, one
load-transform-merge-write cycle runs per language-1 candidate (a file
whose language is language 1 with some same-stem language-2 match),
each cycle pairing that candidate itself as the language-1 track with
its `chosen2` language-2 partner; when all candidates share the base
stem `b`, every write goes to the same derived path
`dir/b.out_ext`, so the file on disk afterwards holds the result
produced by the last candidate in iteration order. -/
theorem claim_C10_last_write_wins (ld : String → SubRip) (P : RecParams)
    (dir b : String) (subs : List SubFile)
    (hall : ∀ s ∈ subs, (base_file_stem s.path).isSome)
    (hb : ∀ c ∈ subs,
      subs.any (fun t => decide (matchCond P.lang1 P.lang2 c t)) →
        base_file_stem c.path = some b) :
    runSubs (fun p => .ok (ld p)) P dir subs subs =
        ((subs.filter (fun s =>
            subs.any (fun t => decide (matchCond P.lang1 P.lang2 s t)))).map
          (fun c => (dir ++ "/" ++ b ++ "." ++ P.out_ext,
            pipelineContent ld P c (chosen2 P.lang1 P.lang2 subs c))), none) ∧
      finalDisk (runSubs (fun p => .ok (ld p)) P dir subs subs).1
          (dir ++ "/" ++ b ++ "." ++ P.out_ext) =
        ((subs.filter (fun s =>
            subs.any (fun t => decide (matchCond P.lang1 P.lang2 s t)))).getLast?).map
          (fun c => pipelineContent ld P c (chosen2 P.lang1 P.lang2 subs c)) := by
  have h := runSubs_total ld P dir subs hall subs (fun s hs => hs)
  have heq : (subs.filter (fun s =>
        subs.any (fun t => decide (matchCond P.lang1 P.lang2 s t)))).map
      (fun c => (dir ++ "/" ++ (base_file_stem c.path).getD ("") ++ "." ++ P.out_ext,
        pipelineContent ld P c (chosen2 P.lang1 P.lang2 subs c))) =
      (subs.filter (fun s =>
        subs.any (fun t => decide (matchCond P.lang1 P.lang2 s t)))).map
      (fun c => (dir ++ "/" ++ b ++ "." ++ P.out_ext,
        pipelineContent ld P c (chosen2 P.lang1 P.lang2 subs c))) := by
    refine List.map_congr_left (fun c hc => ?_)
    obtain ⟨hcm, hcp⟩ := List.mem_filter.mp hc
    rw [hb c hcm (by simpa using hcp)]
    rfl
  constructor
  · rw [h, heq]
  · rw [h]
    simp only []
    rw [heq, finalDisk_map_const]

/-- C10, witness: a directory with a non-HI and an HI language-1 file of
base stem `m` plus one language-2 file, every load succeeding: both
candidates are written to `d/m.srt`, and the disk afterwards holds a
result (the last candidate's, by the theorem). -/
theorem claim_C10_witness :
    (runSubs (fun p => Except.ok ({ subtitles := [] } : SubRip))
        ⟨"en", "ja", none, none, .BottomCenter, .TopCenter, 0, 0, "srt"⟩ "d"
        [⟨"m.en.srt", "en", false⟩, ⟨"m.en.hi.srt", "en", true⟩,
          ⟨"m.ja.srt", "ja", false⟩]
        [⟨"m.en.srt", "en", false⟩, ⟨"m.en.hi.srt", "en", true⟩,
          ⟨"m.ja.srt", "ja", false⟩]).1.map Prod.fst =
      ["d/m.srt", "d/m.srt"] ∧
    (finalDisk (runSubs (fun p => Except.ok ({ subtitles := [] } : SubRip))
        ⟨"en", "ja", none, none, .BottomCenter, .TopCenter, 0, 0, "srt"⟩ "d"
        [⟨"m.en.srt", "en", false⟩, ⟨"m.en.hi.srt", "en", true⟩,
          ⟨"m.ja.srt", "ja", false⟩]
        [⟨"m.en.srt", "en", false⟩, ⟨"m.en.hi.srt", "en", true⟩,
          ⟨"m.ja.srt", "ja", false⟩]).1
      ("d" ++ "/" ++ "m" ++ "." ++
        (⟨"en", "ja", none, none, .BottomCenter, .TopCenter, 0, 0,
          "srt"⟩ : RecParams).out_ext)).isSome := by
  obtain ⟨h1, h2⟩ := claim_C10_last_write_wins
    (fun _ => ({ subtitles := [] } : SubRip))
    ⟨"en", "ja", none, none, .BottomCenter, .TopCenter, 0, 0, "srt"⟩ "d" "m"
    [⟨"m.en.srt", "en", false⟩, ⟨"m.en.hi.srt", "en", true⟩,
      ⟨"m.ja.srt", "ja", false⟩] (by decide) (by decide)
  constructor
  · rw [h1]
    decide
  · rw [h2]
    decide

/-! ## Claim C4 -/

theorem filter_ne_nil_of_any {α : Type} (l : List α) (g : α → Bool)
    (h : l.any g = true) : l.filter g ≠ [] := by
  obtain ⟨t, ht, hgt⟩ := List.any_eq_true.mp h
  intro hnil
  have hmem : t ∈ l.filter g := List.mem_filter.mpr ⟨ht, hgt⟩
  rw [hnil] at hmem
  exact absurd hmem (List.not_mem_nil t)

/-- C4, counterexample to the claim as stated: with four matched files
forming two resolvable pairs (`a` and `b`), a loader that fails on
`a.en.srt` makes the whole recursive run abort with that error and
write nothing — the `b` pair is not processed — whereas with every load
succeeding both pairs are written.  A per-pair parse failure is
therefore fatal to the walk, not skipped. -/
theorem claim_C4_counterexample :
    runSubs (fun p => if p = "a.en.srt" then Except.error ("malformed subtitle")
          else Except.ok { subtitles := [] })
        ⟨"en", "ja", none, none, .BottomCenter, .TopCenter, 0, 0, "srt"⟩ "d"
        [⟨"a.en.srt", "en", false⟩, ⟨"a.ja.srt", "ja", false⟩,
          ⟨"b.en.srt", "en", false⟩, ⟨"b.ja.srt", "ja", false⟩]
        [⟨"a.en.srt", "en", false⟩, ⟨"a.ja.srt", "ja", false⟩,
          ⟨"b.en.srt", "en", false⟩, ⟨"b.ja.srt", "ja", false⟩] =
      ([], some ("malformed subtitle")) ∧
    (runSubs (fun _ => Except.ok { subtitles := [] })
        ⟨"en", "ja", none, none, .BottomCenter, .TopCenter, 0, 0, "srt"⟩ "d"
        [⟨"a.en.srt", "en", false⟩, ⟨"a.ja.srt", "ja", false⟩,
          ⟨"b.en.srt", "en", false⟩, ⟨"b.ja.srt", "ja", false⟩]
        [⟨"a.en.srt", "en", false⟩, ⟨"a.ja.srt", "ja", false⟩,
          ⟨"b.en.srt", "en", false⟩, ⟨"b.ja.srt", "ja", false⟩]).1.map Prod.fst =
      ["d/a.srt", "d/b.srt"] := by
  exact ⟨by decide, by decide⟩

/-- C4, amended: in the recursive loop a failing pair is fatal: when the
iteration order is `pre ++ c :: post`, every pair in `pre` either does
not resolve or processes successfully (producing its write `f s`), and
`c` resolves but its processing fails with `e` (e.g. its file fails to
load or parse), then the run ends with exactly the writes of `pre`'s
resolved pairs followed by the error `e`, and no pair of `post` is
processed. -/
theorem claim_C4_amended (load : String → Except String SubRip) (P : RecParams)
    (dir : String) (subsAll : List SubFile) (pre : List SubFile) (c : SubFile)
    (post : List SubFile) (e : String) (f : SubFile → String × SubRip)
    (hall : ∀ s ∈ subsAll, (base_file_stem s.path).isSome)
    (hc_mem : c ∈ subsAll)
    (hpre_mem : ∀ s ∈ pre, s ∈ subsAll)
    (hpre : ∀ s ∈ pre,
      subsAll.any (fun t => decide (matchCond P.lang1 P.lang2 s t)) = true →
        processPair load P dir s (chosen2 P.lang1 P.lang2 subsAll s) = .ok (f s))
    (hc_any : subsAll.any (fun t => decide (matchCond P.lang1 P.lang2 c t)) = true)
    (hc_err : processPair load P dir c (chosen2 P.lang1 P.lang2 subsAll c) =
      .error e) :
    runSubs load P dir subsAll (pre ++ c :: post) =
      ((pre.filter (fun s =>
          subsAll.any (fun t => decide (matchCond P.lang1 P.lang2 s t)))).map f,
        some e) := by
  revert hpre_mem hpre
  induction pre with
  | nil =>
    intro _ _
    obtain ⟨s2, hs2⟩ := pickLang2_of_ne_nil _ (filter_ne_nil_of_any _ _ hc_any)
    have hch : chosen2 P.lang1 P.lang2 subsAll c = s2 := by
      unfold chosen2
      rw [hs2]
      rfl
    rw [hch] at hc_err
    rw [List.nil_append,
      runSubs_cons_pos load P dir subsAll c s2 post (hall c hc_mem) hall hc_any hs2]
    simp [hc_err]
  | cons s pre' ih =>
    intro hpre_mem hpre
    have hs_mem : s ∈ subsAll := hpre_mem s (by simp)
    have hpre'_mem : ∀ x ∈ pre', x ∈ subsAll := fun x hx => hpre_mem x (by simp [hx])
    have hpre' : ∀ x ∈ pre',
        subsAll.any (fun t => decide (matchCond P.lang1 P.lang2 x t)) = true →
          processPair load P dir x (chosen2 P.lang1 P.lang2 subsAll x) = .ok (f x) :=
      fun x hx h => hpre x (by simp [hx]) h
    by_cases hany : subsAll.any (fun t => decide (matchCond P.lang1 P.lang2 s t)) = true
    · obtain ⟨s2, hs2⟩ := pickLang2_of_ne_nil _ (filter_ne_nil_of_any _ _ hany)
      have hch : chosen2 P.lang1 P.lang2 subsAll s = s2 := by
        unfold chosen2
        rw [hs2]
        rfl
      have hok := hpre s (by simp) hany
      rw [hch] at hok
      rw [List.cons_append,
        runSubs_cons_pos load P dir subsAll s s2 (pre' ++ c :: post)
          (hall s hs_mem) hall hany hs2]
      rw [ih hpre'_mem hpre'] at *
      simp [hok, List.filter_cons, hany]
    · rw [List.cons_append,
        runSubs_cons_neg load P dir subsAll s (pre' ++ c :: post)
          (hall s hs_mem) hall (by simpa using hany)]
      rw [ih hpre'_mem hpre']
      simp [List.filter_cons, hany]

/-- C4, witness for the amended theorem: the `a` pair processes, the `b`
pair's load fails, the run stops with the error after `a`'s write. -/
theorem claim_C4_amended_witness :
    runSubs (fun p => if p = "b.en.srt" then Except.error ("malformed subtitle")
          else Except.ok { subtitles := [] })
        ⟨"en", "ja", none, none, .BottomCenter, .TopCenter, 0, 0, "srt"⟩ "d"
        [⟨"a.en.srt", "en", false⟩, ⟨"a.ja.srt", "ja", false⟩,
          ⟨"b.en.srt", "en", false⟩, ⟨"b.ja.srt", "ja", false⟩]
        ([⟨"a.en.srt", "en", false⟩, ⟨"a.ja.srt", "ja", false⟩] ++
          ⟨"b.en.srt", "en", false⟩ :: [⟨"b.ja.srt", "ja", false⟩]) =
      (([⟨"a.en.srt", "en", false⟩, ⟨"a.ja.srt", "ja", false⟩].filter (fun s =>
          [⟨"a.en.srt", "en", false⟩, ⟨"a.ja.srt", "ja", false⟩,
            ⟨"b.en.srt", "en", false⟩, ⟨"b.ja.srt", "ja", false⟩].any
            (fun t => decide (matchCond ("en") "ja" s t)))).map
        (fun _ => ("d/a.srt", { subtitles := [] })), some ("malformed subtitle")) :=
  claim_C4_amended _ _ _ _ _ _ _ _ _
    (by decide) (by decide) (by decide) (by decide) (by decide) (by decide)

/-! ## Claim C2: matcher lemmas -/

theorem dropLit_eq_some (p s r : List Char) :
    dropLit p s = some r ↔ s = p ++ r := by
  induction p generalizing s with
  | nil =>
    cases s with
    | nil => simp [dropLit]
    | cons c cs => simp [dropLit]
  | cons a p' ih =>
    cases s with
    | nil => simp [dropLit]
    | cons c cs =>
      by_cases hac : a = c
      · subst hac
        simp [dropLit, ih]
      · simp only [dropLit, if_neg hac, List.cons_append]
        constructor
        · intro h
          exact Option.noConfusion h
        · intro h
          injection h with h1 _
          exact absurd h1.symm hac

theorem dropLit_self_append (p r : List Char) : dropLit p (p ++ r) = some r :=
  (dropLit_eq_some p (p ++ r) r).mpr rfl

theorem find_beq_self (exts : List (List Char)) (e : List Char) (h : e ∈ exts) :
    exts.find? (fun x => x == e) = some e := by
  induction exts with
  | nil => exact absurd h (List.not_mem_nil e)
  | cons x xs ih =>
    by_cases hx : x = e
    · subst hx
      simp [List.find?]
    · have he : e ∈ xs := by
        cases List.mem_cons.mp h with
        | inl h' => exact absurd h'.symm hx
        | inr h' => exact h'
      have hbe : (x == e) = false := beq_eq_false_iff_ne.mpr hx
      simp [List.find?_cons, hbe, ih he]

theorem matchExtEnd_eq_some (exts : List (List Char)) (s e : List Char) :
    matchExtEnd exts s = some e ↔ s = '.' :: e ∧ e ∈ exts := by
  cases s with
  | nil => simp [matchExtEnd]
  | cons c rest =>
    by_cases hc : c = '.'
    · subst hc
      simp only [matchExtEnd, if_pos rfl]
      constructor
      · intro h
        have hbe := List.find?_some h
        have hmem := List.mem_of_find?_eq_some h
        have he : e = rest := by simpa using hbe
        subst he
        exact ⟨rfl, hmem⟩
      · rintro ⟨h1, h2⟩
        injection h1 with _ h1'
        subst h1'
        exact find_beq_self exts rest h2
    · simp [matchExtEnd, hc]

theorem matchExtEnd_of_mem (exts : List (List Char)) (e : List Char) (h : e ∈ exts) :
    matchExtEnd exts ('.' :: e) = some e :=
  (matchExtEnd_eq_some exts ('.' :: e) e).mpr ⟨rfl, h⟩

theorem takeWhile_dotless_append (x rest : List Char) (hx : ∀ c ∈ x, c ≠ '.') :
    (x ++ '.' :: rest).takeWhile (fun c => c != '.') = x ∧
      (x ++ '.' :: rest).dropWhile (fun c => c != '.') = '.' :: rest := by
  induction x with
  | nil => simp [List.takeWhile, List.dropWhile]
  | cons c cs ih =>
    have hc : c ≠ '.' := hx c (by simp)
    have ih' := ih (fun d hd => hx d (by simp [hd]))
    constructor
    · simp only [List.cons_append, List.takeWhile_cons]
      rw [if_pos (by simpa using hc)]
      rw [ih'.1]
    · simp only [List.cons_append, List.dropWhile_cons]
      rw [if_pos (by simpa using hc)]
      exact ih'.2

theorem firstSeg_eq (u v a b : List Char) (hu : ∀ c ∈ u, c ≠ '.')
    (hv : ∀ c ∈ v, c ≠ '.') (h : u ++ '.' :: a = v ++ '.' :: b) :
    u = v ∧ a = b := by
  induction u generalizing v with
  | nil =>
    cases v with
    | nil => simpa using h
    | cons d v' =>
      exfalso
      have hd : d ≠ '.' := hv d (by simp)
      rw [List.nil_append, List.cons_append] at h
      injection h with h1 _
      exact hd h1.symm
  | cons c u' ih =>
    cases v with
    | nil =>
      exfalso
      have hc : c ≠ '.' := hu c (by simp)
      rw [List.nil_append, List.cons_append] at h
      injection h with h1 _
      exact hc h1
    | cons d v' =>
      rw [List.cons_append, List.cons_append] at h
      injection h with h1 h2
      obtain ⟨he1, he2⟩ := ih v' (fun e he => hu e (by simp [he]))
        (fun e he => hv e (by simp [he])) h2
      exact ⟨by rw [h1, he1], he2⟩

theorem lastSeg_eq (u v a b : List Char) (hu : ∀ c ∈ u, c ≠ '.')
    (hv : ∀ c ∈ v, c ≠ '.') (h : a ++ '.' :: u = b ++ '.' :: v) :
    u = v ∧ a = b := by
  have hrev := congrArg List.reverse h
  rw [List.reverse_append, List.reverse_append, List.reverse_cons,
    List.reverse_cons, List.append_assoc, List.append_assoc,
    List.singleton_append, List.singleton_append] at hrev
  obtain ⟨h1, h2⟩ := firstSeg_eq u.reverse v.reverse a.reverse b.reverse
    (fun c hc => hu c (List.mem_reverse.mp hc))
    (fun c hc => hv c (List.mem_reverse.mp hc)) hrev
  exact ⟨List.reverse_injective h1, List.reverse_injective h2⟩

theorem dropLit_hi_none (e : List Char) (h : ∀ r, e ≠ 'h' :: 'i' :: r) :
    dropLit ['h', 'i'] e = none := by
  cases e with
  | nil => rfl
  | cons c cs =>
    by_cases hc : 'h' = c
    · subst hc
      cases cs with
      | nil => rfl
      | cons d ds =>
        by_cases hd : 'i' = d
        · subst hd
          exact absurd rfl (h ds)
        · simp [dropLit, hd]
    · simp [dropLit, hc]

theorem tryLangs_sound (exts langs : List (List Char)) (rest : List Char)
    (l : List Char) (h : Bool) (e : List Char)
    (hs : tryLangs exts langs rest = some (l, h, e)) :
    l ∈ langs ∧ e ∈ exts ∧ rest = l ++ hstr h ++ '.' :: e := by
  induction langs with
  | nil => exact absurd hs (by simp [tryLangs])
  | cons L Ls ih =>
    cases hdl : dropLit L rest with
    | none =>
      simp only [tryLangs, hdl] at hs
      obtain ⟨m1, m2, m3⟩ := ih hs
      exact ⟨by simp [m1], m2, m3⟩
    | some r' =>
      have hr : rest = L ++ r' := (dropLit_eq_some L rest r').mp hdl
      simp only [tryLangs, hdl] at hs
      cases hdh : dropLit ['.', 'h', 'i'] r' with
      | some r2 =>
        have hr2 : r' = ['.', 'h', 'i'] ++ r2 :=
          (dropLit_eq_some ['.', 'h', 'i'] r' r2).mp hdh
        simp only [hdh] at hs
        cases hme : matchExtEnd exts r2 with
        | some e0 =>
          simp only [hme] at hs
          obtain ⟨he0, hmem⟩ := (matchExtEnd_eq_some exts r2 e0).mp hme
          simp only [Option.some.injEq, Prod.mk.injEq] at hs
          obtain ⟨rfl, rfl, rfl⟩ := hs
          refine ⟨by simp, hmem, ?_⟩
          rw [hr, hr2, he0]
          simp [hstr]
        | none =>
          simp only [hme] at hs
          cases hme2 : matchExtEnd exts r' with
          | some e0 =>
            simp only [hme2] at hs
            obtain ⟨he0, hmem⟩ := (matchExtEnd_eq_some exts r' e0).mp hme2
            simp only [Option.some.injEq, Prod.mk.injEq] at hs
            obtain ⟨rfl, rfl, rfl⟩ := hs
            refine ⟨by simp, hmem, ?_⟩
            rw [hr, he0]
            simp [hstr]
          | none =>
            simp only [hme2] at hs
            obtain ⟨m1, m2, m3⟩ := ih hs
            exact ⟨by simp [m1], m2, m3⟩
      | none =>
        simp only [hdh] at hs
        cases hme2 : matchExtEnd exts r' with
        | some e0 =>
          simp only [hme2] at hs
          obtain ⟨he0, hmem⟩ := (matchExtEnd_eq_some exts r' e0).mp hme2
          simp only [Option.some.injEq, Prod.mk.injEq] at hs
          obtain ⟨rfl, rfl, rfl⟩ := hs
          refine ⟨by simp, hmem, ?_⟩
          rw [hr, he0]
          simp [hstr]
        | none =>
          simp only [hme2] at hs
          obtain ⟨m1, m2, m3⟩ := ih hs
          exact ⟨by simp [m1], m2, m3⟩

theorem tryLangs_cons_skip (exts Ls : List (List Char)) (L l T' : List Char)
    (hLd : ∀ c ∈ L, c ≠ '.') (hld : ∀ c ∈ l, c ≠ '.') (hne : L ≠ l) :
    tryLangs exts (L :: Ls) (l ++ '.' :: T') = tryLangs exts Ls (l ++ '.' :: T') := by
  cases hdl : dropLit L (l ++ '.' :: T') with
  | none => simp [tryLangs, hdl]
  | some r' =>
    have hr : l ++ '.' :: T' = L ++ r' := (dropLit_eq_some _ _ _).mp hdl
    have hpreL : L <+: (l ++ '.' :: T') := ⟨r', hr.symm⟩
    have hprel : l <+: (l ++ '.' :: T') := ⟨'.' :: T', rfl⟩
    cases List.prefix_or_prefix_of_prefix hpreL hprel with
    | inl hLl =>
      obtain ⟨w, hw⟩ := hLl
      have hwne : w ≠ [] := by
        intro h0
        rw [h0, List.append_nil] at hw
        exact hne hw
      have hr' : r' = w ++ '.' :: T' := by
        have hLr : L ++ r' = L ++ (w ++ '.' :: T') := by
          rw [← hr, ← hw, List.append_assoc]
        exact List.append_cancel_left hLr
      cases w with
      | nil => exact absurd rfl hwne
      | cons c ws =>
        have hc : c ≠ '.' := hld c (by rw [← hw]; simp)
        have hd1 : dropLit ['.', 'h', 'i'] (c :: (ws ++ '.' :: T')) = none := by
          simp only [dropLit]
          rw [if_neg (fun h => hc h.symm)]
        have hd2 : matchExtEnd exts (c :: (ws ++ '.' :: T')) = none := by
          simp [matchExtEnd, hc]
        rw [List.cons_append] at hr'
        simp [tryLangs, hdl, hr', hd1, hd2]
    | inr hlL =>
      obtain ⟨w, hw⟩ := hlL
      have hwne : w ≠ [] := by
        intro h0
        rw [h0, List.append_nil] at hw
        exact hne hw.symm
      exfalso
      have hsplit : '.' :: T' = w ++ r' := by
        have hlr : l ++ '.' :: T' = l ++ (w ++ r') := by
          rw [hr, ← hw, List.append_assoc]
        exact List.append_cancel_left hlr
      cases w with
      | nil => exact hwne rfl
      | cons c ws =>
        have hcL : c ∈ L := by rw [← hw]; simp
        have hcdot : '.' = c := by
          rw [List.cons_append] at hsplit
          injection hsplit with h1 _
        exact hLd c hcL hcdot.symm

theorem tryLangs_complete (exts langs : List (List Char)) (l : List Char)
    (hb : Bool) (e : List Char)
    (hmem : l ∈ langs)
    (hlangs : ∀ L ∈ langs, ∀ c ∈ L, c ≠ '.')
    (he : e ∈ exts)
    (hehp : ∀ x ∈ exts, ∀ r, x ≠ 'h' :: 'i' :: r) :
    tryLangs exts langs (l ++ hstr hb ++ '.' :: e) = some (l, hb, e) := by
  induction langs with
  | nil => cases hmem
  | cons L Ls ih =>
    by_cases hLl : L = l
    · subst hLl
      cases hb with
      | true =>
        have h3 : L ++ hstr true ++ '.' :: e =
            L ++ ('.' :: 'h' :: 'i' :: '.' :: e) := by simp [hstr]
        rw [h3]
        have h1 : dropLit L (L ++ ('.' :: 'h' :: 'i' :: '.' :: e)) =
            some ('.' :: 'h' :: 'i' :: '.' :: e) :=
          dropLit_self_append L ('.' :: 'h' :: 'i' :: '.' :: e)
        have h2 : dropLit ['.', 'h', 'i'] ('.' :: 'h' :: 'i' :: '.' :: e) =
            some ('.' :: e) :=
          dropLit_self_append ['.', 'h', 'i'] ('.' :: e)
        simp [tryLangs, h1, h2, matchExtEnd_of_mem exts e he]
      | false =>
        have h3 : L ++ hstr false ++ '.' :: e = L ++ ('.' :: e) := by simp [hstr]
        rw [h3]
        have h1 : dropLit L (L ++ ('.' :: e)) = some ('.' :: e) :=
          dropLit_self_append L ('.' :: e)
        have h2 : dropLit ['.', 'h', 'i'] ('.' :: e) = none := by
          show dropLit ('.' :: ['h', 'i']) ('.' :: e) = none
          simp only [dropLit, if_pos rfl]
          exact dropLit_hi_none e (hehp e he)
        simp [tryLangs, h1, h2, matchExtEnd_of_mem exts e he]
    · have hmem' : l ∈ Ls := by
        cases List.mem_cons.mp hmem with
        | inl h' => exact absurd h'.symm hLl
        | inr h' => exact h'
      have hskip : tryLangs exts (L :: Ls) (l ++ hstr hb ++ '.' :: e) =
          tryLangs exts Ls (l ++ hstr hb ++ '.' :: e) := by
        cases hb with
        | true =>
          have hsh : l ++ hstr true ++ '.' :: e = l ++ '.' :: ('h' :: 'i' :: '.' :: e) := by
            simp [hstr]
          rw [hsh]
          exact tryLangs_cons_skip exts Ls L l ('h' :: 'i' :: '.' :: e)
            (hlangs L (by simp)) (fun c hc => hlangs l hmem c hc) hLl
        | false =>
          have hsh : l ++ hstr false ++ '.' :: e = l ++ '.' :: e := by simp [hstr]
          rw [hsh]
          exact tryLangs_cons_skip exts Ls L l e
            (hlangs L (by simp)) (fun c hc => hlangs l hmem c hc) hLl
      rw [hskip]
      exact ih hmem' (fun L' hL' => hlangs L' (by simp [hL']))

theorem tryHere_complete (langs exts : List (List Char)) (x rest : List Char)
    (hx : x ≠ []) (hxd : ∀ c ∈ x, c ≠ '.') :
    tryHere langs exts (x ++ '.' :: rest) = tryLangs exts langs rest := by
  obtain ⟨ht, hd⟩ := takeWhile_dotless_append x rest hxd
  have hxe : x.isEmpty = false := by
    cases x with
    | nil => exact absurd rfl hx
    | cons c cs => rfl
  simp [tryHere, ht, hd, hxe]

theorem tryHere_sound (langs exts : List (List Char)) (s : List Char)
    (r : List Char × Bool × List Char) (h : tryHere langs exts s = some r) :
    ∃ x rest, s = x ++ '.' :: rest ∧ x ≠ [] ∧ (∀ c ∈ x, c ≠ '.') ∧
      tryLangs exts langs rest = some r := by
  simp only [tryHere] at h
  by_cases hxe : (s.takeWhile (fun c => c != '.')).isEmpty
  · rw [if_pos hxe] at h
    exact Option.noConfusion h
  · rw [if_neg hxe] at h
    cases hdw : s.dropWhile (fun c => c != '.') with
    | nil =>
      rw [hdw] at h
      exact Option.noConfusion h
    | cons c rest =>
      rw [hdw] at h
      simp only [] at h
      by_cases hc : c = '.'
      · subst hc
        rw [if_pos rfl] at h
        refine ⟨s.takeWhile (fun c => c != '.'), rest, ?_, ?_, ?_, h⟩
        · rw [← hdw]
          exact (List.takeWhile_append_dropWhile _ _).symm
        · intro h0
          rw [h0] at hxe
          exact hxe rfl
        · intro d hd
          have := List.mem_takeWhile_imp hd
          simpa using this
      · rw [if_neg hc] at h
        exact Option.noConfusion h

theorem searchFrom_cons_pos (langs exts : List (List Char)) (c : Char)
    (cs : List Char) (r : List Char × Bool × List Char)
    (h : tryHere langs exts (c :: cs) = some r) :
    searchFrom langs exts (c :: cs) = some r := by
  rw [searchFrom]
  simp only [h]

theorem searchFrom_sound (langs exts : List (List Char)) (s : List Char)
    (r : List Char × Bool × List Char) (h : searchFrom langs exts s = some r) :
    ∃ pre suf, s = pre ++ suf ∧ tryHere langs exts suf = some r := by
  induction s with
  | nil => exact Option.noConfusion h
  | cons c cs ih =>
    rw [searchFrom] at h
    cases hth : tryHere langs exts (c :: cs) with
    | some r0 =>
      rw [hth] at h
      simp only [Option.some.injEq] at h
      exact ⟨[], c :: cs, rfl, by rw [hth, h]⟩
    | none =>
      rw [hth] at h
      simp only [] at h
      obtain ⟨pre, suf, h1, h2⟩ := ih h
      exact ⟨c :: pre, suf, by rw [List.cons_append, h1], h2⟩

theorem std_decomp (X lang ext p x l e : List Char) (hb h : Bool)
    (hXd : ∀ c ∈ X, c ≠ '.') (hlangd : ∀ c ∈ lang, c ≠ '.')
    (hextd : ∀ c ∈ ext, c ≠ '.')
    (hld : ∀ c ∈ l, c ≠ '.') (hlhi : l ≠ ['h', 'i'])
    (hed : ∀ c ∈ e, c ≠ '.')
    (hF : X ++ '.' :: (lang ++ hstr hb ++ '.' :: ext) =
      (p ++ x) ++ '.' :: (l ++ hstr h ++ '.' :: e)) :
    l = lang ∧ h = hb ∧ e = ext := by
  cases hb with
  | false =>
    cases h with
    | false =>
      obtain ⟨he1, hA⟩ := lastSeg_eq ext e (X ++ '.' :: lang) ((p ++ x) ++ '.' :: l)
        hextd hed (by simpa [hstr] using hF)
      obtain ⟨hl1, _⟩ := lastSeg_eq lang l X (p ++ x) hlangd hld (by simpa using hA)
      exact ⟨hl1.symm, rfl, he1.symm⟩
    | true =>
      obtain ⟨he1, hA⟩ := lastSeg_eq ext e (X ++ '.' :: lang)
        ((p ++ x) ++ '.' :: (l ++ ['.', 'h', 'i'])) hextd hed
        (by simpa [hstr] using hF)
      obtain ⟨hl1, hX1⟩ := lastSeg_eq lang ['h', 'i'] X ((p ++ x) ++ '.' :: l)
        hlangd (by decide) (by simpa using hA)
      exfalso
      have hdot : '.' ∈ X := by
        rw [hX1]
        simp
      exact hXd '.' hdot rfl
  | true =>
    cases h with
    | false =>
      obtain ⟨he1, hA⟩ := lastSeg_eq ext e (X ++ '.' :: (lang ++ ['.', 'h', 'i']))
        ((p ++ x) ++ '.' :: l) hextd hed (by simpa [hstr] using hF)
      obtain ⟨hl1, _⟩ := lastSeg_eq ['h', 'i'] l (X ++ '.' :: lang) (p ++ x)
        (by decide) hld (by simpa using hA)
      exact absurd hl1.symm hlhi
    | true =>
      obtain ⟨he1, hA⟩ := lastSeg_eq ext e (X ++ '.' :: (lang ++ ['.', 'h', 'i']))
        ((p ++ x) ++ '.' :: (l ++ ['.', 'h', 'i'])) hextd hed
        (by simpa [hstr] using hF)
      obtain ⟨_, hA2⟩ := lastSeg_eq ['h', 'i'] ['h', 'i'] (X ++ '.' :: lang)
        ((p ++ x) ++ '.' :: l) (by decide) (by decide) (by simpa using hA)
      obtain ⟨hl1, _⟩ := lastSeg_eq lang l X (p ++ x) hlangd hld (by simpa using hA2)
      exact ⟨hl1.symm, rfl, he1.symm⟩

theorem append_dot_ne (X p x : List Char) (hx : x ≠ [])
    (hxd : ∀ c ∈ x, c ≠ '.') : X ++ ['.'] ≠ p ++ x := by
  intro h
  have hrev := congrArg List.reverse h
  rw [List.reverse_append, List.reverse_append] at hrev
  cases hxr : x.reverse with
  | nil =>
    have : x = [] := by
      have := congrArg List.reverse hxr
      simpa using this
    exact hx this
  | cons c cr =>
    rw [hxr] at hrev
    simp only [List.reverse_cons, List.reverse_nil, List.nil_append,
      List.cons_append, List.singleton_append] at hrev
    injection hrev with h1 _
    have hcx : c ∈ x := by
      have : c ∈ x.reverse := by rw [hxr]; simp
      exact List.mem_reverse.mp this
    exact hxd c hcx h1.symm

theorem searchFrom_std (langs exts : List (List Char)) (X lang ext : List Char)
    (hb : Bool)
    (hX : X ≠ []) (hXd : ∀ c ∈ X, c ≠ '.')
    (hlangd : ∀ c ∈ lang, c ≠ '.') (hextd : ∀ c ∈ ext, c ≠ '.')
    (hlangs : ∀ L ∈ langs, (∀ c ∈ L, c ≠ '.') ∧ L ≠ [] ∧ L ≠ ['h', 'i'])
    (hexts : ∀ y ∈ exts, (∀ c ∈ y, c ≠ '.') ∧ ∀ r, y ≠ 'h' :: 'i' :: r) :
    searchFrom langs exts (X ++ '.' :: (lang ++ hstr hb ++ '.' :: ext)) =
      if lang ∈ langs ∧ ext ∈ exts then some (lang, hb, ext) else none := by
  by_cases hcond : lang ∈ langs ∧ ext ∈ exts
  · rw [if_pos hcond]
    have hth : tryHere langs exts (X ++ '.' :: (lang ++ hstr hb ++ '.' :: ext)) =
        some (lang, hb, ext) := by
      rw [tryHere_complete langs exts X _ hX hXd]
      exact tryLangs_complete exts langs lang hb ext hcond.1
        (fun L hL => (hlangs L hL).1) hcond.2 (fun y hy => (hexts y hy).2)
    cases X with
    | nil => exact absurd rfl hX
    | cons x0 xs =>
      rw [List.cons_append]
      rw [List.cons_append] at hth
      exact searchFrom_cons_pos langs exts x0 _ _ hth
  · rw [if_neg hcond]
    cases hsf : searchFrom langs exts (X ++ '.' :: (lang ++ hstr hb ++ '.' :: ext)) with
    | none => rfl
    | some r =>
      exfalso
      obtain ⟨pre, suf, hps, hth⟩ := searchFrom_sound langs exts _ r hsf
      obtain ⟨x, rest, hsuf, hxne, hxd, htl⟩ := tryHere_sound langs exts suf r hth
      obtain ⟨l, h, e⟩ := r
      obtain ⟨hlmem, hemem, hrest⟩ := tryLangs_sound exts langs rest l h e htl
      have hF : X ++ '.' :: (lang ++ hstr hb ++ '.' :: ext) =
          (pre ++ x) ++ '.' :: (l ++ hstr h ++ '.' :: e) := by
        rw [hps, hsuf, hrest]
        simp [List.append_assoc]
      obtain ⟨hl1, _, he1⟩ := std_decomp X lang ext pre x l e hb h hXd hlangd hextd
        (hlangs l hlmem).1 (hlangs l hlmem).2.2 (hexts e hemem).1 hF
      exact hcond ⟨hl1 ▸ hlmem, he1 ▸ hemem⟩

theorem searchFrom_ddot (langs exts : List (List Char)) (X lang ext : List Char)
    (hb : Bool)
    (hXd : ∀ c ∈ X, c ≠ '.')
    (hlangd : ∀ c ∈ lang, c ≠ '.') (hextd : ∀ c ∈ ext, c ≠ '.')
    (hlangs : ∀ L ∈ langs, (∀ c ∈ L, c ≠ '.') ∧ L ≠ [] ∧ L ≠ ['h', 'i'])
    (hexts : ∀ y ∈ exts, (∀ c ∈ y, c ≠ '.') ∧ ∀ r, y ≠ 'h' :: 'i' :: r) :
    searchFrom langs exts
      (X ++ '.' :: '.' :: (lang ++ hstr hb ++ '.' :: ext)) = none := by
  cases hsf : searchFrom langs exts
      (X ++ '.' :: '.' :: (lang ++ hstr hb ++ '.' :: ext)) with
  | none => rfl
  | some r =>
    exfalso
    obtain ⟨pre, suf, hps, hth⟩ := searchFrom_sound langs exts _ r hsf
    obtain ⟨x, rest, hsuf, hxne, hxd, htl⟩ := tryHere_sound langs exts suf r hth
    obtain ⟨l, h, e⟩ := r
    obtain ⟨hlmem, hemem, hrest⟩ := tryLangs_sound exts langs rest l h e htl
    have hld := (hlangs l hlmem).1
    have hlne := (hlangs l hlmem).2.1
    have hlhi := (hlangs l hlmem).2.2
    have hed := (hexts e hemem).1
    have hF : X ++ '.' :: '.' :: (lang ++ hstr hb ++ '.' :: ext) =
        (pre ++ x) ++ '.' :: (l ++ hstr h ++ '.' :: e) := by
      rw [hps, hsuf, hrest]
      simp [List.append_assoc]
    cases hb with
    | false =>
      cases h with
      | false =>
        obtain ⟨he1, hA⟩ := lastSeg_eq ext e (X ++ '.' :: '.' :: lang)
          ((pre ++ x) ++ '.' :: l) hextd hed (by simpa [hstr] using hF)
        obtain ⟨hl1, hX1⟩ := lastSeg_eq lang l (X ++ ['.']) (pre ++ x)
          hlangd hld (by simpa using hA)
        exact append_dot_ne X pre x hxne hxd hX1
      | true =>
        obtain ⟨he1, hA⟩ := lastSeg_eq ext e (X ++ '.' :: '.' :: lang)
          ((pre ++ x) ++ '.' :: (l ++ ['.', 'h', 'i'])) hextd hed
          (by simpa [hstr] using hF)
        obtain ⟨hl1, hX1⟩ := lastSeg_eq lang ['h', 'i'] (X ++ ['.'])
          ((pre ++ x) ++ '.' :: l) hlangd (by decide) (by simpa using hA)
        obtain ⟨hl2, _⟩ := lastSeg_eq [] l X (pre ++ x)
          (by decide) hld (by simpa using hX1)
        exact hlne hl2.symm
    | true =>
      cases h with
      | false =>
        obtain ⟨he1, hA⟩ := lastSeg_eq ext e
          (X ++ '.' :: '.' :: (lang ++ ['.', 'h', 'i'])) ((pre ++ x) ++ '.' :: l)
          hextd hed (by simpa [hstr] using hF)
        obtain ⟨hl1, _⟩ := lastSeg_eq ['h', 'i'] l (X ++ '.' :: '.' :: lang)
          (pre ++ x) (by decide) hld (by simpa using hA)
        exact hlhi hl1.symm
      | true =>
        obtain ⟨he1, hA⟩ := lastSeg_eq ext e
          (X ++ '.' :: '.' :: (lang ++ ['.', 'h', 'i']))
          ((pre ++ x) ++ '.' :: (l ++ ['.', 'h', 'i'])) hextd hed
          (by simpa [hstr] using hF)
        obtain ⟨_, hA2⟩ := lastSeg_eq ['h', 'i'] ['h', 'i']
          (X ++ '.' :: '.' :: lang) ((pre ++ x) ++ '.' :: l)
          (by decide) (by decide) (by simpa using hA)
        obtain ⟨hl1, hX1⟩ := lastSeg_eq lang l (X ++ ['.']) (pre ++ x)
          hlangd hld (by simpa using hA2)
        exact append_dot_ne X pre x hxne hxd hX1

theorem string_toList_append (a b : String) :
    (a ++ b).toList = a.toList ++ b.toList := by
  cases a with
  | mk da =>
    cases b with
    | mk db => rfl

theorem string_mk_toList (s : String) : String.mk s.toList = s := by
  cases s
  rfl

theorem string_toList_inj (a b : String) : a.toList = b.toList ↔ a = b := by
  constructor
  · intro h
    rw [← string_mk_toList a, ← string_mk_toList b, h]
  · intro h
    rw [h]

theorem string_toList_ne_nil (s : String) (h : s ≠ "") : s.toList ≠ [] := by
  intro h0
  apply h
  rw [← string_mk_toList s, h0]

/-- C2, counterexample to the claim as stated: with the distinct
language codes `hi` (Hindi) and `ja`, the filename `m.en.hi.srt` — of
the form `X.lang.hi.ext` with `X = m`, `lang = en`, `.hi` present and
`ext = srt` — matches even though `en` is neither requested language:
the matcher reads `en` as the `[^\.]+` base part and captures `hi` as
the language, reporting `hearing_impaired = false` although the literal
`.hi` segment is present. -/
theorem claim_C2_counterexample :
    subCapture ("hi") "ja" true ("m.en.hi.srt") = some ("hi", false, "srt") ∧
      ("hi" : String) ≠ "ja" ∧
      ("en" : String) ≠ "hi" ∧ ("en" : String) ≠ "ja" := by decide

/-- C2, amended: for distinct, nonempty, alphanumeric language codes
(the simple identifiers the §4.1 contract trusts, which the regex
treats as literal strings) neither of which is the literal `hi`, and
every filename of the form `X.lang(.hi)?.ext` with `X` nonempty and
`X`, `lang`, `ext` dot-free, the compiled Filename Matcher matches iff
`lang` is one of the two codes and `ext` is in the allowed extension
set (`srt`, plus `vtt` when the vtt flag is set); on a match it
captures exactly `lang`, reports `hearing_impaired = true` exactly when
the literal `.hi` segment is present, and captures `ext`.  A filename
with a double dot immediately before the language segment never
matches. -/
theorem claim_C2_amended (l1 l2 X lang ext : String) (hi vtt : Bool)
    (h12 : l1 ≠ l2)
    (hl1a : ∀ c ∈ l1.toList, c.isAlphanum = true)
    (hl2a : ∀ c ∈ l2.toList, c.isAlphanum = true)
    (hl1e : l1 ≠ "") (hl1d : ∀ c ∈ l1.toList, c ≠ '.') (hl1hi : l1 ≠ "hi")
    (hl2e : l2 ≠ "") (hl2d : ∀ c ∈ l2.toList, c ≠ '.') (hl2hi : l2 ≠ "hi")
    (hXe : X ≠ "") (hXd : ∀ c ∈ X.toList, c ≠ '.')
    (hlangd : ∀ c ∈ lang.toList, c ≠ '.')
    (hextd : ∀ c ∈ ext.toList, c ≠ '.') :
    subCapture l1 l2 vtt
        (X ++ "." ++ lang ++ (if hi then (".hi") else ("")) ++ "." ++ ext) =
      (if (lang = l1 ∨ lang = l2) ∧ (ext = "srt" ∨ (vtt = true ∧ ext = "vtt"))
        then some (lang, hi, ext) else none) ∧
    subCapture l1 l2 vtt
        (X ++ ".." ++ lang ++ (if hi then (".hi") else ("")) ++ "." ++ ext) = none := by
  have hlangs : ∀ L ∈ [l1.toList, l2.toList],
      (∀ c ∈ L, c ≠ '.') ∧ L ≠ [] ∧ L ≠ ['h', 'i'] := by
    intro L hL
    rcases List.mem_cons.mp hL with h | h
    · subst h
      exact ⟨hl1d, string_toList_ne_nil l1 hl1e,
        fun h0 => hl1hi ((string_toList_inj l1 ("hi")).mp h0)⟩
    · have h' : L = l2.toList := by simpa using h
      subst h'
      exact ⟨hl2d, string_toList_ne_nil l2 hl2e,
        fun h0 => hl2hi ((string_toList_inj l2 ("hi")).mp h0)⟩
  have hsrt : ∀ r : List Char, ("srt" : String).toList ≠ 'h' :: 'i' :: r := by
    intro r h0
    injection h0 with h1 _
    exact absurd h1 (by decide)
  have hvtt : ∀ r : List Char, ("vtt" : String).toList ≠ 'h' :: 'i' :: r := by
    intro r h0
    injection h0 with h1 _
    exact absurd h1 (by decide)
  have hexts : ∀ y ∈ allowedExts vtt,
      (∀ c ∈ y, c ≠ '.') ∧ ∀ r, y ≠ 'h' :: 'i' :: r := by
    cases vtt with
    | false =>
      intro y hy
      have h' : y = ("srt" : String).toList := by simpa [allowedExts] using hy
      subst h'
      exact ⟨by decide, hsrt⟩
    | true =>
      intro y hy
      rcases (by simpa [allowedExts] using hy :
          y = ("srt" : String).toList ∨ y = ("vtt" : String).toList) with h' | h'
      · subst h'
        exact ⟨by decide, hsrt⟩
      · subst h'
        exact ⟨by decide, hvtt⟩
  have hF1 : (X ++ "." ++ lang ++ (if hi then (".hi") else ("")) ++ "." ++ ext).toList
      = X.toList ++ '.' :: (lang.toList ++ hstr hi ++ '.' :: ext.toList) := by
    cases hi <;>
      simp [string_toList_append, hstr,
        show ("." : String).toList = ['.'] from rfl,
        show (".hi" : String).toList = ['.', 'h', 'i'] from rfl,
        show ("" : String).toList = [] from rfl]
  have hF2 : (X ++ ".." ++ lang ++ (if hi then (".hi") else ("")) ++ "." ++ ext).toList
      = X.toList ++ '.' :: '.' :: (lang.toList ++ hstr hi ++ '.' :: ext.toList) := by
    cases hi <;>
      simp [string_toList_append, hstr,
        show ("." : String).toList = ['.'] from rfl,
        show (".." : String).toList = ['.', '.'] from rfl,
        show (".hi" : String).toList = ['.', 'h', 'i'] from rfl,
        show ("" : String).toList = [] from rfl]
  have e1 := string_toList_inj lang l1
  have e2 := string_toList_inj lang l2
  have e3 := string_toList_inj ext ("srt")
  have e4 := string_toList_inj ext ("vtt")
  have hciff : (lang.toList ∈ [l1.toList, l2.toList] ∧
      ext.toList ∈ allowedExts vtt) ↔
      ((lang = l1 ∨ lang = l2) ∧ (ext = "srt" ∨ (vtt = true ∧ ext = "vtt"))) := by
    cases vtt with
    | false =>
      rw [show allowedExts false = [("srt" : String).toList] from rfl]
      simp only [List.mem_cons, List.not_mem_nil, or_false, e1, e2, e3,
        Bool.false_eq_true, false_and]
    | true =>
      rw [show allowedExts true = [("srt" : String).toList,
        ("vtt" : String).toList] from rfl]
      simp only [List.mem_cons, List.not_mem_nil, or_false, e1, e2, e3, e4,
        eq_self_iff_true, true_and]
  constructor
  · unfold subCapture
    rw [hF1, searchFrom_std [l1.toList, l2.toList] (allowedExts vtt)
      X.toList lang.toList ext.toList hi (string_toList_ne_nil X hXe) hXd
      hlangd hextd hlangs hexts]
    by_cases hcond : lang.toList ∈ [l1.toList, l2.toList] ∧
        ext.toList ∈ allowedExts vtt
    · rw [if_pos hcond, if_pos (hciff.mp hcond)]
      simp [string_mk_toList]
    · rw [if_neg hcond, if_neg (fun h => hcond (hciff.mpr h))]
      rfl
  · unfold subCapture
    rw [hF2, searchFrom_ddot [l1.toList, l2.toList] (allowedExts vtt)
      X.toList lang.toList ext.toList hi hXd hlangd hextd hlangs hexts]
    rfl

/-- C2, witness for the amended theorem: languages `en`/`ja` with the
vtt flag set, on `movie.en.srt` and its double-dot variant. -/
theorem claim_C2_amended_witness :
    subCapture ("en") "ja" true
        ("movie" ++ "." ++ "en" ++ (if false then (".hi") else ("")) ++ "." ++ "srt") =
      some ("en", false, "srt") ∧
    subCapture ("en") "ja" true
        ("movie" ++ ".." ++ "en" ++ (if false then (".hi") else ("")) ++ "." ++ "srt") =
      none := by
  obtain ⟨h1, h2⟩ := claim_C2_amended ("en") "ja" "movie" "en" "srt" false true
    (by decide) (by decide) (by decide) (by decide) (by decide) (by decide)
    (by decide) (by decide) (by decide) (by decide) (by decide) (by decide)
    (by decide)
  exact ⟨h1.trans (by decide), h2⟩
